import Mathlib

/-!
Verification of the rhizomes module: fast algorithms for polynomials in the
Lagrange basis (evaluation at the powers of a root of unity in a finite field).

The field type, the transforms (`ntt`, `ntt_inv_finish`, `ntt_star`), the
integer `log2` helper and the Horner evaluator `poly_eval` are external
collaborators of the module; they are modelled from the spec.  Everything else
is a direct embedding of `src/rhizomes/mod.rs` over lists and a general field.

Rust slice writes `v[i] = x` are modelled with `List.set` (identical for
in-bounds indices); reads `v[i]` with `List.getD i 0`.  A Rust `assert!` or
slice-bounds panic becomes an `Option` result where a claim talks about the
failure, and is otherwise excluded by the theorems' hypotheses.
-/

namespace Rhizomes

/-- Modelled from the spec: `crate::fp::log2`, the base-2 integer logarithm of a
size (floor logarithm); fuel-based so that it is kernel-reducible. -/
def log2F : ℕ → ℕ → ℕ
  | 0, _ => 0
  | fuel + 1, n => if 2 ≤ n then log2F fuel (n / 2) + 1 else 0

/-- Modelled from the spec: `log2 n` is the floor base-2 logarithm of `n`. -/
def log2 (n : ℕ) : ℕ := log2F n n

variable {F : Type} [Field F]

/-- Embeds `half_power`: the element `1/(2^n)` on `F`, built by repeatedly
multiplying `F::one()` by the field constant `F::half() = 1/2`. -/
def half_power (F : Type) [Field F] (n : ℕ) : F :=
  (List.range n).foldl (fun x _ => x * (2 : F)⁻¹) 1

/-- Embeds `inv_pow2`: the element `1/n` on `F` where `n` must be a power of
two; the `assert_eq!(n, 1 << log2_n)` failure is modelled as `none`. -/
def inv_pow2 (F : Type) [Field F] (n : ℕ) : Option F :=
  if n = 2 ^ log2 n then some (half_power F (log2 n)) else none

/-- Embeds `term_w`: the inverse of the product of `roots[i] - roots[j]` over
`j ≤ m`, `j ≠ i` (the Lagrange barycentric weight denominator). -/
def term_w (m i : ℕ) (roots : List F) : F :=
  ((List.range (m + 1)).foldl
    (fun w j => if i ≠ j then w * (roots.getD i 0 - roots.getD j 0) else w) 1)⁻¹

/-- Embeds `extend_dimension_one`: computes the value of the interpolant of
`values` (sampled at the first `k` of `n` roots) at `roots[k]`.  The cyclic
iterator `roots.iter().cycle().skip(1 + (n >> 1))` pairs `values[i]` with
`roots[(1 + n/2 + i) % n]`.  The `assert!(k < n)` failure path returns `0`
(theorems only consider `k < n`). -/
def extend_dimension_one (values roots : List F) : F :=
  let k := values.length
  let n := roots.length
  if k < n then
    if k = n - 1 then
      (List.range k).foldl
        (fun y i => y + values.getD i 0 * roots.getD ((1 + n / 2 + i) % n) 0) 0
    else
      ((List.range k).foldl (fun y i => y + values.getD i 0 * term_w k i roots) 0) *
        (-(term_w k k roots)⁻¹)
  else 0

/-- Embeds `perfect_shuffle`, fuel-based so that it is kernel-reducible: the
fuel strictly dominates the recursion depth (each recursive argument is
strictly shorter), so `perfect_shuffle` below satisfies the source's recursion
equation (`perfect_shuffle_eq`). -/
def perfect_shuffleF {α : Type} : ℕ → List α → List α
  | 0, l => l
  | fuel + 1, l =>
    if 4 ≤ l.length then
      perfect_shuffleF fuel ((l.take (l.length / 2)).take (l.length / 4) ++
          (l.drop (l.length / 2)).take (l.length / 4)) ++
        perfect_shuffleF fuel ((l.take (l.length / 2)).drop (l.length / 4) ++
          (l.drop (l.length / 2)).drop (l.length / 4))
    else l

/-- Embeds `perfect_shuffle`: for length `≥ 4`, swaps the inner quarter blocks
(the upper half of the first half with the lower half of the second half) and
recurses into each half; shorter inputs are returned unchanged. -/
def perfect_shuffle {α : Type} (l : List α) : List α :=
  perfect_shuffleF l.length l

/-- Reference interleaving `[a0, b0, a1, b1, ...]` of two lists, used to state
what `perfect_shuffle` computes. -/
def interleave {α : Type} : List α → List α → List α
  | [], ys => ys
  | x :: xs, ys =>
    match ys with
    | [] => x :: xs
    | y :: ys => x :: y :: interleave xs ys

/-- Embeds the copy loop of `nth_root_powers`: `for j in (1..mid).rev()`
`{ roots[j << 1] = roots[j] }` (sub-domain reuse, `w_{2n}^{2j} = w_n^j`). -/
def nthRootCopy (mid : ℕ) (r : List F) : List F :=
  ((List.range' 1 (mid - 1)).reverse).foldl
    (fun r j => r.set (2 * j) (r.getD j 0)) r

/-- Embeds the odd-index loop of `nth_root_powers`:
`for j in (3..mid).step_by(2) { roots[j] = wn * roots[j-1]; roots[j+mid] = -roots[j] }`. -/
def nthRootOdd (wn : F) (mid : ℕ) (r : List F) : List F :=
  (List.range' 3 ((mid - 2) / 2) 2).foldl
    (fun r j =>
      let r := r.set j (wn * r.getD (j - 1) 0)
      r.set (j + mid) (-(r.getD j 0))) r

/-- Embeds one iteration (`for i in 2..=log2_n`) of `nth_root_powers`. -/
def nthRootStep (root : ℕ → F) (r : List F) (i : ℕ) : List F :=
  let mid := 2 ^ (i - 1)
  let wn := root i
  nthRootOdd wn mid (((nthRootCopy mid r).set 1 wn).set (1 + mid) (-wn))

/-- Embeds `nth_root_powers`: generates the powers of the primitive n-th root
of unity by incremental doubling, for `n` a power of two (the
`assert_eq!(n, 1 << log2_n)` failure is modelled as `none`).  The external
`F::root(i)` capability of NTT-friendly fields is the argument `root`. -/
def nth_root_powers (root : ℕ → F) (n : ℕ) : Option (List F) :=
  if n = 2 ^ log2 n then
    let roots := (List.replicate n (0 : F)).set 0 1
    some (if 1 < n then
        (List.range' 2 (log2 n - 1)).foldl (nthRootStep root) (roots.set 1 (-1))
      else roots)
  else none

/-- Embeds the iterator `core::iter::successors(Some(one), |x| Some(x * wn))`:
the list `[x, x*wn, x*wn^2, ...]` of the given length. -/
def successorsTake (wn : F) : ℕ → F → List F
  | 0, _ => []
  | k + 1, x => x :: successorsTake wn k (x * wn)

/-- Embeds the test oracle `nth_root_powers_slow`: the iterative method,
successive multiplications by the primitive root of order `n`. -/
def nth_root_powers_slow (root : ℕ → F) (n : ℕ) : List F :=
  successorsTake (root (log2 n)) n 1

/-- Embeds `poly_eval_rhizomes` (Algorithm 6): evaluates a polynomial given in
the Lagrange basis.  State `(l, u, d)` is the running product of point
differences, the running numerator, and the last difference `roots[i] - x`.
The scaling `-inv_pow2(roots.len())` is read through `.getD 0`, whose default
arm corresponds to the assertion failure the theorems exclude. -/
def poly_eval_rhizomes (poly roots : List F) (x : F) : F :=
  let n := poly.length
  let s :=
    (List.range' 1 (n - 1)).foldl
      (fun (s : F × F × F) i =>
        let l' := s.1 * s.2.2
        let d' := roots.getD i 0 - x
        (l', s.2.1 * d' + l' * roots.getD i 0 * poly.getD i 0, d'))
      (1, poly.getD 0 0, roots.getD 0 0 - x)
  let u :=
    (List.range' n (roots.length - n)).foldl (fun u i => u * (roots.getD i 0 - x)) s.2.1
  if 1 < roots.length then u * (-((inv_pow2 F roots.length).getD 0)) else u

/-- Embeds `poly_eval_rhizomes_batched` (Algorithm 7): evaluates all
polynomials at a shared point, amortising the shared `(l, d)` recurrence; a
polynomial stops contributing (`poly.get(i)` is `None`) once `i` reaches its
length, but its accumulator keeps being multiplied by `d`. -/
def poly_eval_rhizomes_batched (polynomials : List (List F)) (roots : List F) (x : F) :
    List F :=
  let u0 := polynomials.map (fun poly => poly.getD 0 0)
  let s :=
    (List.range' 1 (roots.length - 1)).foldl
      (fun (s : List F × F × F) i =>
        let l' := s.2.1 * s.2.2
        let d' := roots.getD i 0 - x
        let t := l' * roots.getD i 0
        (List.zipWith
          (fun uj poly =>
            if i < poly.length then uj * d' + t * poly.getD i 0 else uj * d')
          s.1 polynomials, l', d'))
      (u0, 1, roots.getD 0 0 - x)
  if 1 < roots.length then
    s.1.map (fun uj => uj * (-((inv_pow2 F roots.length).getD 0)))
  else s.1

/-- Embeds `poly_multieval_rhizomes_batched`: evaluates one polynomial at every
point of `output_x`, overwriting each point with its result; the products
`z[i] = poly[i] * roots[i]` are precomputed once. -/
def poly_multieval_rhizomes_batched (output_x poly roots : List F) : List F :=
  let n := poly.length
  let z := List.zipWith (fun yi wni => yi * wni) poly roots
  let num_roots_inv := -((inv_pow2 F roots.length).getD 0)
  output_x.map (fun xj =>
    let s :=
      (List.range' 1 (n - 1)).foldl
        (fun (s : F × F × F) i =>
          let l' := s.1 * s.2.2
          let d' := roots.getD i 0 - xj
          (l', s.2.1 * d' + l' * z.getD i 0, d'))
        (1, poly.getD 0 0, roots.getD 0 0 - xj)
    let u :=
      (List.range' n (roots.length - n)).foldl (fun u i => u * (roots.getD i 0 - xj)) s.2.1
    if 1 < roots.length then u * num_roots_inv else u)

/-- Modelled from the spec: `crate::polynomial::poly_eval`, Horner evaluation
of a coefficient-form polynomial. -/
def horner (coeffs : List F) (x : F) : F :=
  coeffs.foldr (fun c acc => acc * x + c) 0

/-- Modelled from the spec: the composite of the forward `ntt` and
`ntt_inv_finish` (the inverse-NTT finishing step applying the `1/n`
normalization), which recovers the coefficient form of a polynomial from its
values at the `n`-th roots of unity: `a_k = (1/n) * Σ_j y_j w^(-jk)`. -/
def intt_coeffs (w : F) (n : ℕ) (y : List F) : List F :=
  (List.range n).map (fun k =>
    (n : F)⁻¹ * ∑ j ∈ Finset.range n, y.getD j 0 * (w⁻¹) ^ (j * k))

/-- Modelled from the spec: `crate::ntt::ntt_star`, the twisted/coset transform
taking coefficients to the values at the odd-indexed `2n`-th roots of unity
`w2^(2j+1)`. -/
def ntt_star (w2 : F) (n : ℕ) (a : List F) : List F :=
  (List.range n).map (fun j =>
    ∑ k ∈ Finset.range n, a.getD k 0 * (w2 ^ (2 * j + 1)) ^ k)

/-- Embeds `extend_dimension_double`: re-samples the polynomial whose values
over the `n`-th roots fill `values[..n]` onto the `2n`-th roots, writing the
new samples into `values[n..2n]` and interleaving with `perfect_shuffle`; the
two assertion failures (`2n ≤ len`, `n` a power of two) are modelled as
`none`. -/
def extend_dimension_double (root : ℕ → F) (values : List F) (n : ℕ) :
    Option (List F) :=
  if 2 * n ≤ values.length ∧ n = 2 ^ log2 n then
    let tmp := intt_coeffs (root (log2 n)) n (values.take n)
    let news := ntt_star (root (log2 n + 1)) n tmp
    some (perfect_shuffle (values.take n ++ news) ++ values.drop (2 * n))
  else none

/-- Concrete 17-element field used to instantiate the abstract field model on
examples: the carrier of `ZMod 17` with a kernel-reducible inverse
(`a⁻¹ = a ^ 15`, correct by Fermat's little theorem and checked by `decide`). -/
def K : Type := ZMod 17

instance : CommRing K := inferInstanceAs (CommRing (ZMod 17))

instance : DecidableEq K := inferInstanceAs (DecidableEq (ZMod 17))

instance : Fintype K := inferInstanceAs (Fintype (ZMod 17))

instance : Field K :=
  { (inferInstanceAs (CommRing K)) with
    inv := fun a => a ^ (15 : ℕ)
    exists_pair_ne := ⟨0, 1, by decide⟩
    mul_inv_cancel := by decide
    inv_zero := by decide
    nnqsmul := _
    qsmul := _ }

/-- Concrete root-of-unity chain on `K` (2-adicity 4), used to instantiate the
external `F::root` capability on examples: `kroot k` has multiplicative order
`2^k` for `k ≤ 4` and `(kroot (k+1))^2 = kroot k`. -/
def kroot : ℕ → K
  | 0 => 1
  | 1 => 16
  | 2 => 4
  | 3 => 2
  | 4 => 6
  | _ => 1

/-! ### Helper lemmas: `log2` and fold/sum conversions -/

theorem log2F_two_pow (fuel : ℕ) : ∀ k, 2 ^ k ≤ fuel → log2F fuel (2 ^ k) = k := by
  induction fuel with
  | zero =>
      intro k h
      exact absurd h (Nat.not_le.mpr (pow_pos (by norm_num) k))
  | succ fuel ih =>
      intro k h
      cases k with
      | zero => simp [log2F]
      | succ k =>
          have h2 : 2 ≤ 2 ^ (k + 1) := by
            calc 2 = 2 ^ 1 := (pow_one 2).symm
            _ ≤ 2 ^ (k + 1) := Nat.pow_le_pow_right (by norm_num) (by omega)
          have hdiv : 2 ^ (k + 1) / 2 = 2 ^ k := by
            rw [pow_succ]
            exact Nat.mul_div_cancel _ (by norm_num)
          have hle : 2 ^ k ≤ fuel := by
            have : 2 ^ k < 2 ^ (k + 1) := Nat.pow_lt_pow_right (by norm_num) (by omega)
            omega
          rw [log2F, if_pos h2, hdiv, ih k hle]

theorem log2_two_pow (k : ℕ) : log2 (2 ^ k) = k :=
  log2F_two_pow _ k le_rfl

theorem pow2_iff_eq_pow_log2 (n : ℕ) : (∃ k, n = 2 ^ k) ↔ n = 2 ^ log2 n := by
  constructor
  · rintro ⟨k, rfl⟩
    rw [log2_two_pow]
  · intro h
    exact ⟨log2 n, h⟩

theorem foldl_add_eq_sum (f : ℕ → F) (c : F) (k : ℕ) :
    (List.range k).foldl (fun y i => y + f i) c = c + ∑ i ∈ Finset.range k, f i := by
  induction k with
  | zero => simp
  | succ k ih =>
      rw [List.range_succ, List.foldl_append, ih, Finset.sum_range_succ, List.foldl_cons,
        List.foldl_nil, add_assoc]

theorem foldl_mul_eq_prod (f : ℕ → F) (u0 : F) (a : ℕ) :
    ∀ b, (List.range' a b).foldl (fun u i => u * f i) u0
      = u0 * ∏ i ∈ Finset.Ico a (a + b), f i := by
  intro b
  induction b with
  | zero => simp
  | succ b ih =>
      have hr : List.range' a (b + 1) = List.range' a b ++ [a + b] := by
        simpa using @List.range'_concat 1 a b
      rw [hr, List.foldl_append, ih, List.foldl_cons, List.foldl_nil]
      have hab : a + (b + 1) = (a + b) + 1 := by omega
      rw [hab, Finset.prod_Ico_succ_top (by omega), mul_assoc]

theorem foldl_ite_mul_eq_prod_erase (f : ℕ → F) (i N : ℕ) :
    (List.range N).foldl (fun w j => if i ≠ j then w * f j else w) 1
      = ∏ j ∈ (Finset.range N).erase i, f j := by
  induction N with
  | zero => simp
  | succ N ih =>
      rw [List.range_succ, List.foldl_append, ih, List.foldl_cons, List.foldl_nil]
      by_cases hi : i = N
      · subst hi
        have he : (Finset.range (i + 1)).erase i = (Finset.range i).erase i := by
          ext m
          simp only [Finset.mem_erase, Finset.mem_range]
          omega
        simp [he]
      · have he : (Finset.range (N + 1)).erase i = insert N ((Finset.range N).erase i) := by
          ext m
          simp only [Finset.mem_erase, Finset.mem_insert, Finset.mem_range]
          omega
        have hN : N ∉ (Finset.range N).erase i := by simp
        rw [he, Finset.prod_insert hN, if_pos hi]
        exact mul_comm _ _

theorem term_w_eq_inv_prod (m i : ℕ) (roots : List F) :
    term_w m i roots
      = (∏ j ∈ (Finset.range (m + 1)).erase i,
          (roots.getD i 0 - roots.getD j 0))⁻¹ := by
  unfold term_w
  rw [foldl_ite_mul_eq_prod_erase]

theorem getD_map_range (g : ℕ → F) {n i : ℕ} (h : i < n) :
    ((List.range n).map g).getD i 0 = g i := by
  simp [List.getD_eq_getElem?_getD, List.getElem?_map, List.getElem?_range h]

theorem getD_zipWith (f : F → F → F) (p q : List F) {i : ℕ}
    (h1 : i < p.length) (h2 : i < q.length) :
    (List.zipWith f p q).getD i 0 = f (p.getD i 0) (q.getD i 0) := by
  have hlen : i < (List.zipWith f p q).length := by
    simp [List.length_zipWith]; omega
  simp only [List.getD_eq_getElem?_getD, List.getElem?_eq_getElem hlen,
    List.getElem?_eq_getElem h1, List.getElem?_eq_getElem h2]
  simp [List.getElem_zipWith]

theorem zipWith_self {α β : Type} (f : α → α → β) :
    ∀ l : List α, List.zipWith f l l = l.map (fun a => f a a) := by
  intro l
  induction l with
  | nil => rfl
  | cons a l ih => simp [ih]

theorem foldl_congr_mem {α β : Type} (f g : β → α → β) (l : List α)
    (h : ∀ i ∈ l, ∀ s, f s i = g s i) :
    ∀ init, l.foldl f init = l.foldl g init := by
  induction l with
  | nil => intro init; rfl
  | cons a l ih =>
      intro init
      rw [List.foldl_cons, List.foldl_cons, h a (by simp)]
      exact ih (fun i hi s => h i (by simp [hi]) s) _

/-! ### `perfect_shuffle` and `interleave` -/

theorem interleave_nil_right {α : Type} (xs : List α) : interleave xs [] = xs := by
  cases xs <;> rfl

theorem interleave_cons_cons {α : Type} (x y : α) (xs ys : List α) :
    interleave (x :: xs) (y :: ys) = x :: y :: interleave xs ys := rfl

theorem length_interleave {α : Type} :
    ∀ (a b : List α), (interleave a b).length = a.length + b.length := by
  intro a
  induction a with
  | nil => intro b; simp [interleave]
  | cons x xs ih =>
      intro b
      cases b with
      | nil => rw [interleave_nil_right]; simp
      | cons y ys =>
          rw [interleave_cons_cons]
          simp only [List.length_cons, ih ys]
          omega

theorem interleave_append {α : Type} :
    ∀ (a b a' b' : List α), a.length = b.length →
      interleave (a ++ a') (b ++ b') = interleave a b ++ interleave a' b' := by
  intro a
  induction a with
  | nil =>
      intro b a' b' h
      have hb0 : b.length = 0 := by simpa using h.symm
      have : b = [] := List.length_eq_zero.mp hb0
      subst this
      simp [interleave]
  | cons x xs ih =>
      intro b a' b' h
      cases b with
      | nil => simp at h
      | cons y ys =>
          simp only [List.cons_append, interleave_cons_cons]
          rw [ih ys a' b' (by simpa using h)]

theorem perfect_shuffleF_congr {α : Type} : ∀ (fuel fuel' : ℕ) (l : List α),
    l.length ≤ fuel → l.length ≤ fuel' →
    perfect_shuffleF fuel l = perfect_shuffleF fuel' l := by
  intro fuel
  induction fuel with
  | zero =>
      intro fuel' l h _
      have hl : l = [] := List.length_eq_zero.mp (by omega)
      subst hl
      cases fuel' with
      | zero => rfl
      | succ f => rfl
  | succ fuel ih =>
      intro fuel' l h h'
      cases fuel' with
      | zero =>
          have hl : l = [] := List.length_eq_zero.mp (by omega)
          subst hl
          rfl
      | succ f' =>
          rw [perfect_shuffleF, perfect_shuffleF]
          by_cases h4 : 4 ≤ l.length
          · rw [if_pos h4, if_pos h4]
            have hq1 : ((l.take (l.length / 2)).take (l.length / 4) ++
                (l.drop (l.length / 2)).take (l.length / 4)).length < l.length := by
              simp only [List.length_append, List.length_take, List.length_drop]
              omega
            have hq2 : ((l.take (l.length / 2)).drop (l.length / 4) ++
                (l.drop (l.length / 2)).drop (l.length / 4)).length < l.length := by
              simp only [List.length_append, List.length_take, List.length_drop]
              omega
            rw [ih f' _ (by omega) (by omega), ih f' _ (by omega) (by omega)]
          · rw [if_neg h4, if_neg h4]

theorem perfect_shuffle_eq {α : Type} (l : List α) :
    perfect_shuffle l = if 4 ≤ l.length then
      perfect_shuffle ((l.take (l.length / 2)).take (l.length / 4) ++
          (l.drop (l.length / 2)).take (l.length / 4)) ++
        perfect_shuffle ((l.take (l.length / 2)).drop (l.length / 4) ++
          (l.drop (l.length / 2)).drop (l.length / 4))
    else l := by
  unfold perfect_shuffle
  rw [perfect_shuffleF_congr l.length (l.length + 1) l le_rfl (by omega),
    perfect_shuffleF]
  by_cases h4 : 4 ≤ l.length
  · rw [if_pos h4, if_pos h4]
    have hq1 : ((l.take (l.length / 2)).take (l.length / 4) ++
        (l.drop (l.length / 2)).take (l.length / 4)).length ≤ l.length := by
      simp only [List.length_append, List.length_take, List.length_drop]
      omega
    have hq2 : ((l.take (l.length / 2)).drop (l.length / 4) ++
        (l.drop (l.length / 2)).drop (l.length / 4)).length ≤ l.length := by
      simp only [List.length_append, List.length_take, List.length_drop]
      omega
    rw [perfect_shuffleF_congr l.length _ _ hq1 le_rfl,
      perfect_shuffleF_congr l.length _ _ hq2 le_rfl]
  · rw [if_neg h4, if_neg h4]

theorem perfect_shuffle_short {α : Type} (l : List α) (h : l.length < 4) :
    perfect_shuffle l = l := by
  rw [perfect_shuffle_eq, if_neg (by omega)]

theorem perfect_shuffle_eq_interleave {α : Type} :
    ∀ (t : ℕ) (a b : List α), a.length = 2 ^ t → b.length = 2 ^ t →
      perfect_shuffle (a ++ b) = interleave a b := by
  intro t
  induction t with
  | zero =>
      intro a b ha hb
      match a, ha, b, hb with
      | [x], _, [y], _ => exact perfect_shuffle_short _ (by simp)
  | succ t ih =>
      intro a b ha hb
      have hlen : (a ++ b).length = 2 ^ (t + 2) := by
        simp [ha, hb]; ring
      have h4 : 4 ≤ (a ++ b).length := by
        rw [hlen]
        calc 4 = 2 ^ 2 := by norm_num
        _ ≤ 2 ^ (t + 2) := Nat.pow_le_pow_right (by norm_num) (by omega)
      have hhalf : (a ++ b).length / 2 = a.length := by
        simp [ha, hb]
        omega
      have hquart : (a ++ b).length / 4 = 2 ^ t := by
        rw [hlen]
        have : 2 ^ (t + 2) = 2 ^ t * 4 := by ring
        rw [this]
        exact Nat.mul_div_cancel _ (by norm_num)
      have htake : (a ++ b).take ((a ++ b).length / 2) = a := by
        rw [hhalf]; exact List.take_left a b
      have hdrop : (a ++ b).drop ((a ++ b).length / 2) = b := by
        rw [hhalf]; exact List.drop_left a b
      rw [perfect_shuffle_eq, if_pos h4, htake, hdrop, hquart]
      have hpow : (2:ℕ) ^ (t + 1) = 2 ^ t + 2 ^ t := by ring
      have hat : (a.take (2 ^ t)).length = 2 ^ t := by
        simp only [List.length_take, ha, hpow]
        omega
      have hbt : (b.take (2 ^ t)).length = 2 ^ t := by
        simp only [List.length_take, hb, hpow]
        omega
      have had : (a.drop (2 ^ t)).length = 2 ^ t := by
        simp only [List.length_drop, ha, hpow]
        omega
      have hbd : (b.drop (2 ^ t)).length = 2 ^ t := by
        simp only [List.length_drop, hb, hpow]
        omega
      rw [ih _ _ hat hbt, ih _ _ had hbd,
        ← interleave_append _ _ _ _ (by rw [hat, hbt]),
        List.take_append_drop, List.take_append_drop]

theorem perfect_shuffle_perm_aux {α : Type} :
    ∀ (N : ℕ) (l : List α), l.length ≤ N → (perfect_shuffle l).Perm l := by
  intro N
  induction N with
  | zero =>
      intro l h
      have : l = [] := List.length_eq_zero.mp (by omega)
      subst this
      simp [perfect_shuffle_short]
  | succ N ih =>
      intro l h
      by_cases h4 : 4 ≤ l.length
      · rw [perfect_shuffle_eq, if_pos h4]
        set a := l.take (l.length / 2) with hadef
        set b := l.drop (l.length / 2) with hbdef
        set q := l.length / 4 with hqdef
        have hla : a.length = l.length / 2 := by
          simp [hadef]
          omega
        have hlb : b.length = l.length - l.length / 2 := by simp [hbdef]
        have hlen1 : (a.take q ++ b.take q).length ≤ N := by
          simp only [List.length_append, List.length_take]
          omega
        have hlen2 : (a.drop q ++ b.drop q).length ≤ N := by
          simp only [List.length_append, List.length_drop]
          omega
        have p1 := ih _ hlen1
        have p2 := ih _ hlen2
        refine ((p1.append p2).trans ?_)
        have step1 : (a.take q ++ b.take q) ++ (a.drop q ++ b.drop q)
            = a.take q ++ ((b.take q ++ a.drop q) ++ b.drop q) := by
          simp only [List.append_assoc]
        rw [step1]
        have hmid : (b.take q ++ a.drop q).Perm (a.drop q ++ b.take q) :=
          List.perm_append_comm
        refine List.Perm.trans ((hmid.append_right _).append_left _) ?_
        have step2 : a.take q ++ ((a.drop q ++ b.take q) ++ b.drop q)
            = (a.take q ++ a.drop q) ++ (b.take q ++ b.drop q) := by
          simp only [List.append_assoc]
        rw [step2, List.take_append_drop, List.take_append_drop, List.take_append_drop]
      · rw [perfect_shuffle_short l (by omega)]

theorem perfect_shuffle_perm {α : Type} (l : List α) : (perfect_shuffle l).Perm l :=
  perfect_shuffle_perm_aux l.length l le_rfl

theorem length_perfect_shuffle {α : Type} (l : List α) :
    (perfect_shuffle l).length = l.length :=
  (perfect_shuffle_perm l).length_eq

theorem interleave_getD_even {α : Type} (d : α) :
    ∀ (a b : List α) (j : ℕ), a.length = b.length → j < a.length →
      (interleave a b).getD (2 * j) d = a.getD j d := by
  intro a
  induction a with
  | nil => intro b j _ hj; simp at hj
  | cons x xs ih =>
      intro b j h hj
      cases b with
      | nil => simp at h
      | cons y ys =>
          rw [interleave_cons_cons]
          cases j with
          | zero => rfl
          | succ j =>
              have h2 : 2 * (j + 1) = (2 * j) + 1 + 1 := by ring
              rw [h2]
              simpa using ih ys j (by simpa using h) (by simpa using hj)

theorem rhizomes_loop (poly roots : List F) (x : F) :
    ∀ m, (List.range' 1 m).foldl
        (fun (s : F × F × F) i =>
          let l' := s.1 * s.2.2
          let d' := roots.getD i 0 - x
          (l', s.2.1 * d' + l' * roots.getD i 0 * poly.getD i 0, d'))
        (1, poly.getD 0 0, roots.getD 0 0 - x)
      = (∏ j ∈ Finset.range m, (roots.getD j 0 - x),
         ∑ j ∈ Finset.range (m + 1),
           (if j = 0 then 1 else roots.getD j 0) * poly.getD j 0 *
             ∏ i ∈ (Finset.range (m + 1)).erase j, (roots.getD i 0 - x),
         roots.getD m 0 - x) := by
  intro m
  induction m with
  | zero => simp
  | succ m ih =>
      have hr : List.range' 1 (m + 1) = List.range' 1 m ++ [1 + m] := by
        simpa using @List.range'_concat 1 1 m
      have h1m : 1 + m = m + 1 := by omega
      rw [hr, List.foldl_append, ih, h1m, List.foldl_cons, List.foldl_nil]
      dsimp only
      refine congrArg₂ Prod.mk (Finset.prod_range_succ _ m).symm
        (congrArg₂ Prod.mk ?_ rfl)
      have hins : Finset.range (m + 2) = insert (m + 1) (Finset.range (m + 1)) :=
        Finset.range_succ
      rw [hins, Finset.sum_insert (by simp), Finset.erase_insert (by simp)]
      have hterm : ∀ j ∈ Finset.range (m + 1),
          (if j = 0 then 1 else roots.getD j 0) * poly.getD j 0 *
            ∏ i ∈ (insert (m + 1) (Finset.range (m + 1))).erase j, (roots.getD i 0 - x)
          = (roots.getD (m + 1) 0 - x) *
            ((if j = 0 then 1 else roots.getD j 0) * poly.getD j 0 *
              ∏ i ∈ (Finset.range (m + 1)).erase j, (roots.getD i 0 - x)) := by
        intro j hj
        have hj' : j < m + 1 := Finset.mem_range.mp hj
        have hset : (insert (m + 1) (Finset.range (m + 1))).erase j
            = insert (m + 1) ((Finset.range (m + 1)).erase j) := by
          ext i
          simp only [Finset.mem_erase, Finset.mem_insert, Finset.mem_range]
          omega
        rw [hset, Finset.prod_insert (by simp)]
        ring
      rw [Finset.sum_congr rfl hterm, ← Finset.mul_sum, if_neg (Nat.succ_ne_zero m),
        ← Finset.prod_range_succ (fun j => roots.getD j 0 - x) m]
      ring

theorem rhizomes_closed_form (poly roots : List F) (x : F) (hn : 1 ≤ poly.length)
    (hR : poly.length ≤ roots.length) :
    poly_eval_rhizomes poly roots x
      = (if 1 < roots.length then -((inv_pow2 F roots.length).getD 0) else 1) *
        ((∑ j ∈ Finset.range poly.length,
            (if j = 0 then 1 else roots.getD j 0) * poly.getD j 0 *
              ∏ i ∈ (Finset.range poly.length).erase j, (roots.getD i 0 - x)) *
          ∏ i ∈ Finset.Ico poly.length roots.length, (roots.getD i 0 - x)) := by
  unfold poly_eval_rhizomes
  dsimp only
  rw [rhizomes_loop poly roots x (poly.length - 1)]
  have hm : poly.length - 1 + 1 = poly.length := by omega
  have hIco : poly.length + (roots.length - poly.length) = roots.length := by omega
  rw [foldl_mul_eq_prod, hm, hIco]
  by_cases h1 : 1 < roots.length
  · rw [if_pos h1, if_pos h1]
    ring
  · rw [if_neg h1, if_neg h1]
    ring

/-- The per-polynomial accumulator of the batched evaluator after the loop has
processed indices `1..=m`. -/
theorem batched_loop (polys : List (List F)) (roots : List F) (x : F) :
    ∀ m, (List.range' 1 m).foldl
        (fun (s : List F × F × F) i =>
          let l' := s.2.1 * s.2.2
          let d' := roots.getD i 0 - x
          let t := l' * roots.getD i 0
          (List.zipWith
            (fun uj poly =>
              if i < poly.length then uj * d' + t * poly.getD i 0 else uj * d')
            s.1 polys, l', d'))
        (polys.map (fun poly => poly.getD 0 0), 1, roots.getD 0 0 - x)
      = (polys.map (fun p =>
           ∑ k ∈ Finset.range (min (m + 1) p.length),
             (if k = 0 then 1 else roots.getD k 0) * p.getD k 0 *
               ∏ i ∈ (Finset.range (m + 1)).erase k, (roots.getD i 0 - x)),
         ∏ j ∈ Finset.range m, (roots.getD j 0 - x),
         roots.getD m 0 - x) := by
  intro m
  induction m with
  | zero =>
      simp only [List.range'_zero, List.foldl_nil]
      refine congrArg₂ Prod.mk ?_ (congrArg₂ Prod.mk (by simp) rfl)
      refine List.map_congr_left ?_
      intro p _
      match p with
      | [] => simp
      | y :: p => simp
  | succ m ih =>
      have hr : List.range' 1 (m + 1) = List.range' 1 m ++ [1 + m] := by
        simpa using @List.range'_concat 1 1 m
      have h1m : 1 + m = m + 1 := by omega
      rw [hr, List.foldl_append, ih, h1m, List.foldl_cons, List.foldl_nil]
      dsimp only
      refine congrArg₂ Prod.mk ?_
        (congrArg₂ Prod.mk (Finset.prod_range_succ _ m).symm rfl)
      rw [List.zipWith_map_left, zipWith_self]
      refine List.map_congr_left ?_
      intro p _
      by_cases hlt : m + 1 < p.length
      · rw [if_pos hlt]
        have hmin1 : min (m + 1) p.length = m + 1 := by omega
        have hmin2 : min (m + 2) p.length = m + 2 := by omega
        rw [hmin1, hmin2]
        have hins : Finset.range (m + 2) = insert (m + 1) (Finset.range (m + 1)) :=
          Finset.range_succ
        rw [hins, Finset.sum_insert (by simp), Finset.erase_insert (by simp)]
        have hterm : ∀ j ∈ Finset.range (m + 1),
            (if j = 0 then 1 else roots.getD j 0) * p.getD j 0 *
              ∏ i ∈ (insert (m + 1) (Finset.range (m + 1))).erase j, (roots.getD i 0 - x)
            = (roots.getD (m + 1) 0 - x) *
              ((if j = 0 then 1 else roots.getD j 0) * p.getD j 0 *
                ∏ i ∈ (Finset.range (m + 1)).erase j, (roots.getD i 0 - x)) := by
          intro j hj
          have hj' : j < m + 1 := Finset.mem_range.mp hj
          have hset : (insert (m + 1) (Finset.range (m + 1))).erase j
              = insert (m + 1) ((Finset.range (m + 1)).erase j) := by
            ext i
            simp only [Finset.mem_erase, Finset.mem_insert, Finset.mem_range]
            omega
          rw [hset, Finset.prod_insert (by simp)]
          ring
        rw [Finset.sum_congr rfl hterm, ← Finset.mul_sum, if_neg (Nat.succ_ne_zero m),
          ← Finset.prod_range_succ (fun j => roots.getD j 0 - x) m]
        ring
      · rw [if_neg hlt]
        have hple : p.length ≤ m + 1 := by omega
        have hmin1 : min (m + 1) p.length = p.length := by omega
        have hmin2 : min (m + 2) p.length = p.length := by omega
        rw [hmin1, hmin2]
        have hterm : ∀ k ∈ Finset.range p.length,
            (if k = 0 then 1 else roots.getD k 0) * p.getD k 0 *
              ∏ i ∈ (Finset.range (m + 2)).erase k, (roots.getD i 0 - x)
            = (roots.getD (m + 1) 0 - x) *
              ((if k = 0 then 1 else roots.getD k 0) * p.getD k 0 *
                ∏ i ∈ (Finset.range (m + 1)).erase k, (roots.getD i 0 - x)) := by
          intro k hk
          have hk' : k < p.length := Finset.mem_range.mp hk
          have hset : (Finset.range (m + 2)).erase k
              = insert (m + 1) ((Finset.range (m + 1)).erase k) := by
            ext i
            simp only [Finset.mem_erase, Finset.mem_insert, Finset.mem_range]
            omega
          rw [hset, Finset.prod_insert (by simp)]
          ring
        rw [Finset.sum_congr rfl hterm, ← Finset.mul_sum]
        ring

theorem sum_prod_erase_split (c y D : ℕ → F) (np R : ℕ) (h2 : np ≤ R) :
    ∑ k ∈ Finset.range np, c k * y k * ∏ i ∈ (Finset.range R).erase k, D i
      = (∑ k ∈ Finset.range np, c k * y k * ∏ i ∈ (Finset.range np).erase k, D i) *
        ∏ i ∈ Finset.Ico np R, D i := by
  rw [Finset.sum_mul]
  refine Finset.sum_congr rfl ?_
  intro k hk
  have hk' : k < np := Finset.mem_range.mp hk
  have hsplit : (Finset.range R).erase k
      = ((Finset.range np).erase k) ∪ Finset.Ico np R := by
    ext i
    simp only [Finset.mem_erase, Finset.mem_union, Finset.mem_range, Finset.mem_Ico]
    omega
  have hdisj : Disjoint ((Finset.range np).erase k) (Finset.Ico np R) := by
    rw [Finset.disjoint_left]
    intro a ha hb
    have h1 := Finset.mem_range.mp (Finset.mem_of_mem_erase ha)
    have h2 := (Finset.mem_Ico.mp hb).1
    omega
  rw [hsplit, Finset.prod_union hdisj]
  ring

theorem batched_eq_map_single (polys : List (List F)) (roots : List F) (x : F)
    (hne : ∀ p ∈ polys, p ≠ []) (hlen : ∀ p ∈ polys, p.length ≤ roots.length) :
    poly_eval_rhizomes_batched polys roots x
      = polys.map (fun p => poly_eval_rhizomes p roots x) := by
  unfold poly_eval_rhizomes_batched
  dsimp only
  rw [batched_loop polys roots x (roots.length - 1)]
  have key : ∀ p ∈ polys,
      (∑ k ∈ Finset.range (min (roots.length - 1 + 1) p.length),
        (if k = 0 then 1 else roots.getD k 0) * p.getD k 0 *
          ∏ i ∈ (Finset.range (roots.length - 1 + 1)).erase k, (roots.getD i 0 - x))
      = (∑ j ∈ Finset.range p.length,
          (if j = 0 then 1 else roots.getD j 0) * p.getD j 0 *
            ∏ i ∈ (Finset.range p.length).erase j, (roots.getD i 0 - x)) *
          ∏ i ∈ Finset.Ico p.length roots.length, (roots.getD i 0 - x) := by
    intro p hp
    have hp1 : 1 ≤ p.length := by
      have := hne p hp
      cases p with
      | nil => simp at this
      | cons a l => simp
    have hpR : p.length ≤ roots.length := hlen p hp
    have hR1 : 1 ≤ roots.length := le_trans hp1 hpR
    have hRm : roots.length - 1 + 1 = roots.length := by omega
    have hmin : min (roots.length - 1 + 1) p.length = p.length := by omega
    rw [hRm] at hmin ⊢
    rw [hmin]
    exact sum_prod_erase_split _ _ _ _ _ hpR
  by_cases h1 : 1 < roots.length
  · rw [if_pos h1, List.map_map]
    refine List.map_congr_left ?_
    intro p hp
    simp only [Function.comp_apply]
    rw [key p hp,
      rhizomes_closed_form p roots x
        (by have := hne p hp; cases p with | nil => simp at this | cons a l => simp)
        (hlen p hp),
      if_pos h1]
    ring
  · rw [if_neg h1]
    refine List.map_congr_left ?_
    intro p hp
    rw [key p hp,
      rhizomes_closed_form p roots x
        (by have := hne p hp; cases p with | nil => simp at this | cons a l => simp)
        (hlen p hp),
      if_neg h1]
    ring

theorem multieval_eq_map_single (output_x poly roots : List F)
    (hlen : poly.length ≤ roots.length) :
    poly_multieval_rhizomes_batched output_x poly roots
      = output_x.map (fun xj => poly_eval_rhizomes poly roots xj) := by
  unfold poly_multieval_rhizomes_batched
  dsimp only
  refine List.map_congr_left ?_
  intro xj _
  unfold poly_eval_rhizomes
  dsimp only
  have hfold :
      (List.range' 1 (poly.length - 1)).foldl
        (fun (s : F × F × F) i =>
          let l' := s.1 * s.2.2
          let d' := roots.getD i 0 - xj
          (l', s.2.1 * d' +
            l' * (List.zipWith (fun yi wni => yi * wni) poly roots).getD i 0, d'))
        (1, poly.getD 0 0, roots.getD 0 0 - xj)
      = (List.range' 1 (poly.length - 1)).foldl
        (fun (s : F × F × F) i =>
          let l' := s.1 * s.2.2
          let d' := roots.getD i 0 - xj
          (l', s.2.1 * d' + l' * roots.getD i 0 * poly.getD i 0, d'))
        (1, poly.getD 0 0, roots.getD 0 0 - xj) := by
    refine foldl_congr_mem _ _ _ ?_ _
    intro i hi s
    have hi' : 1 ≤ i ∧ i < 1 + (poly.length - 1) := List.mem_range'_1.mp hi
    have hip : i < poly.length := by omega
    have hir : i < roots.length := by omega
    dsimp only
    rw [getD_zipWith _ _ _ hip hir]
    ring_nf
  rw [hfold]

theorem interleave_getD_odd {α : Type} (d : α) :
    ∀ (a b : List α) (j : ℕ), a.length = b.length → j < b.length →
      (interleave a b).getD (2 * j + 1) d = b.getD j d := by
  intro a
  induction a with
  | nil => intro b j h hj; simp at h; omega
  | cons x xs ih =>
      intro b j h hj
      cases b with
      | nil => simp at hj
      | cons y ys =>
          rw [interleave_cons_cons]
          cases j with
          | zero => rfl
          | succ j =>
              have h2 : 2 * (j + 1) + 1 = (2 * j + 1) + 1 + 1 := by ring
              rw [h2]
              simpa using ih ys j (by simpa using h) (by simpa using hj)

/-! ### Roots of unity: factorization, Lagrange denominators, orthogonality -/

open Polynomial in
theorem prod_X_sub_C_pow2 :
    ∀ (t : ℕ) (w : F), w ^ (2 ^ t) = -1 →
      ∏ i ∈ Finset.range (2 ^ (t + 1)), (X - C (w ^ i)) =
        X ^ (2 ^ (t + 1)) - 1 := by
  intro t
  induction t with
  | zero =>
      intro w hw
      have hw1 : w = -1 := by simpa using hw
      subst hw1
      have h2 : (2 : ℕ) ^ (0 + 1) = 2 := by norm_num
      rw [h2, Finset.prod_range_succ, Finset.prod_range_one]
      simp only [pow_zero, pow_one, map_one, map_neg]
      ring
  | succ t ih =>
      intro w hw
      have hv : (w ^ 2) ^ (2 ^ t) = -1 := by
        rw [← pow_mul]
        have : 2 * 2 ^ t = 2 ^ (t + 1) := by ring
        rw [this]
        exact hw
      have ihv := ih (w ^ 2) hv
      have hsplit : (2 : ℕ) ^ (t + 2) = 2 ^ (t + 1) + 2 ^ (t + 1) := by ring
      rw [hsplit, Finset.prod_range_add, ← Finset.prod_mul_distrib]
      have hterm : ∀ i,
          (X - C (w ^ i)) * (X - C (w ^ (2 ^ (t + 1) + i)))
            = X ^ 2 - C ((w ^ 2) ^ i) := by
        intro i
        have hpow : w ^ (2 ^ (t + 1) + i) = -(w ^ i) := by
          rw [pow_add, hw]
          ring
        have hC : C ((w ^ 2) ^ i) = (C (w ^ i) : F[X]) ^ 2 := by
          rw [← map_pow, ← pow_mul, ← pow_mul, mul_comm i 2]
        rw [hpow, map_neg, hC]
        ring
      rw [Finset.prod_congr rfl (fun i _ => hterm i)]
      have happ := congrArg (Polynomial.eval₂RingHom (C : F →+* F[X]) ((X : F[X]) ^ 2)) ihv
      simp only [map_prod, map_sub, map_pow, map_one, coe_eval₂RingHom, eval₂_X,
        eval₂_C] at happ
      have hCp : ∀ i : ℕ, ((C w : F[X]) ^ 2) ^ i = C ((w ^ 2) ^ i) := by
        intro i
        rw [← map_pow, ← map_pow]
      simp only [hCp] at happ
      rw [happ, ← pow_mul]
      have hexp : 2 ^ (t + 1) * 2 = 2 ^ (t + 1) + 2 ^ (t + 1) := by ring
      rw [mul_comm, hexp]

open Polynomial in
theorem prod_X_sub_C_erase (t : ℕ) (w : F) (hw : w ^ (2 ^ t) = -1)
    (j : ℕ) (hj : j < 2 ^ (t + 1)) :
    ∏ i ∈ (Finset.range (2 ^ (t + 1))).erase j, (X - C (w ^ i))
      = ∑ k ∈ Finset.range (2 ^ (t + 1)), X ^ k * C ((w ^ j) ^ (2 ^ (t + 1) - 1 - k)) := by
  have hwN : w ^ (2 ^ (t + 1)) = 1 := by
    have : (2 : ℕ) ^ (t + 1) = 2 ^ t * 2 := by ring
    rw [this, pow_mul, hw]
    ring
  have hwjN : (w ^ j) ^ (2 ^ (t + 1)) = 1 := by
    rw [← pow_mul, mul_comm, pow_mul, hwN, one_pow]
  have h1 : (∏ i ∈ (Finset.range (2 ^ (t + 1))).erase j, (X - C (w ^ i))) *
      (X - C (w ^ j)) = X ^ (2 ^ (t + 1)) - 1 := by
    rw [Finset.prod_erase_mul _ _ (Finset.mem_range.mpr hj)]
    exact prod_X_sub_C_pow2 t w hw
  have h2 : (∑ k ∈ Finset.range (2 ^ (t + 1)), X ^ k * C ((w ^ j) ^ (2 ^ (t + 1) - 1 - k))) *
      (X - C (w ^ j)) = X ^ (2 ^ (t + 1)) - 1 := by
    have hg := geom_sum₂_mul (X : F[X]) (C (w ^ j)) (2 ^ (t + 1))
    have hCpow : ∀ m : ℕ, (C (w ^ j) : F[X]) ^ m = C ((w ^ j) ^ m) := by
      intro m
      rw [← map_pow]
    simp only [hCpow] at hg
    rw [hwjN, map_one] at hg
    exact hg
  exact mul_right_cancel₀ (Polynomial.X_sub_C_ne_zero (w ^ j)) (h1.trans h2.symm)

theorem prod_pow_sub_eval (t : ℕ) (w : F) (hw : w ^ (2 ^ t) = -1) (x : F) :
    ∏ i ∈ Finset.range (2 ^ (t + 1)), (x - w ^ i) = x ^ (2 ^ (t + 1)) - 1 := by
  have := congrArg (Polynomial.eval x) (prod_X_sub_C_pow2 t w hw)
  simpa [Polynomial.eval_prod] using this

theorem prod_erase_eval (t : ℕ) (w : F) (hw : w ^ (2 ^ t) = -1)
    (j : ℕ) (hj : j < 2 ^ (t + 1)) (x : F) :
    ∏ i ∈ (Finset.range (2 ^ (t + 1))).erase j, (x - w ^ i)
      = ∑ k ∈ Finset.range (2 ^ (t + 1)), x ^ k * (w ^ j) ^ (2 ^ (t + 1) - 1 - k) := by
  have := congrArg (Polynomial.eval x) (prod_X_sub_C_erase t w hw j hj)
  simpa [Polynomial.eval_prod, Polynomial.eval_finset_sum] using this

theorem prod_erase_self (t : ℕ) (w : F) (hw : w ^ (2 ^ t) = -1)
    (j : ℕ) (hj : j < 2 ^ (t + 1)) :
    ∏ i ∈ (Finset.range (2 ^ (t + 1))).erase j, (w ^ j - w ^ i)
      = ((2 ^ (t + 1) : ℕ) : F) * (w ^ j) ^ (2 ^ (t + 1) - 1) := by
  rw [prod_erase_eval t w hw j hj (w ^ j)]
  have hterm : ∀ k ∈ Finset.range (2 ^ (t + 1)),
      (w ^ j) ^ k * (w ^ j) ^ (2 ^ (t + 1) - 1 - k)
        = (w ^ j) ^ (2 ^ (t + 1) - 1) := by
    intro k hk
    have hk' : k < 2 ^ (t + 1) := Finset.mem_range.mp hk
    rw [← pow_add]
    congr 1
    omega
  rw [Finset.sum_congr rfl hterm, Finset.sum_const, Finset.card_range, nsmul_eq_mul]

theorem chain_pow_ne_one (t : ℕ) (w : F) (hw : w ^ (2 ^ t) = -1) (h2 : (2 : F) ≠ 0) :
    ∀ d, 0 < d → d < 2 ^ (t + 1) → w ^ d ≠ 1 := by
  have hne : (-1 : F) ≠ 1 := by
    intro h
    exact h2 (by linear_combination (-1 : F) * h)
  have hwN : w ^ (2 ^ (t + 1)) = 1 := by
    have : (2 : ℕ) ^ (t + 1) = 2 ^ t * 2 := by ring
    rw [this, pow_mul, hw]
    ring
  have hdvd : orderOf w ∣ 2 ^ (t + 1) := orderOf_dvd_of_pow_eq_one hwN
  obtain ⟨s, hs, hsord⟩ := (Nat.dvd_prime_pow Nat.prime_two).mp hdvd
  have hst : s = t + 1 := by
    by_contra hne'
    have hst' : s ≤ t := by omega
    have : orderOf w ∣ 2 ^ t := by
      rw [hsord]
      exact pow_dvd_pow 2 hst'
    have hw1 : w ^ (2 ^ t) = 1 := orderOf_dvd_iff_pow_eq_one.mp this
    rw [hw] at hw1
    exact hne hw1
  intro d hd0 hdN hwd
  have : orderOf w ∣ d := orderOf_dvd_of_pow_eq_one hwd
  rw [hsord, hst] at this
  have := Nat.le_of_dvd hd0 this
  omega

theorem w_ne_zero {N : ℕ} (hN : 0 < N) {w : F} (hwN : w ^ N = 1) : w ≠ 0 := by
  intro h0
  rw [h0, zero_pow hN.ne'] at hwN
  exact absurd hwN.symm one_ne_zero

theorem geom_sum_eq_zero {N : ℕ} {z : F} (hzN : z ^ N = 1) (hz : z ≠ 1) :
    ∑ i ∈ Finset.range N, z ^ i = 0 := by
  have h := geom_sum_mul z N
  rw [hzN, sub_self] at h
  rcases mul_eq_zero.mp h with h' | h'
  · exact h'
  · exact absurd (sub_eq_zero.mp h') hz

theorem orth_sum (N : ℕ) (hN : 0 < N) (w : F) (hwN : w ^ N = 1)
    (hord : ∀ d, 0 < d → d < N → w ^ d ≠ 1) (j k : ℕ) (hj : j < N) (hk : k < N) :
    ∑ i ∈ Finset.range N, (w ^ j * (w⁻¹) ^ k) ^ i = if j = k then ((N : ℕ) : F) else 0 := by
  have hw0 : w ≠ 0 := w_ne_zero hN hwN
  have hwk0 : w ^ k ≠ 0 := pow_ne_zero k hw0
  have hz : w ^ j * (w⁻¹) ^ k = w ^ j * (w ^ k)⁻¹ := by rw [inv_pow]
  by_cases hjk : j = k
  · subst hjk
    rw [if_pos rfl, hz, mul_inv_cancel₀ (pow_ne_zero j hw0)]
    simp
  · rw [if_neg hjk]
    have hzN : (w ^ j * (w⁻¹) ^ k) ^ N = 1 := by
      rw [hz, mul_pow, ← pow_mul, inv_pow, ← pow_mul, mul_comm j N, mul_comm k N,
        pow_mul, pow_mul, hwN, one_pow, one_pow]
      simp
    have hz1 : w ^ j * (w⁻¹) ^ k ≠ 1 := by
      intro h1
      rw [hz] at h1
      have hjq : w ^ j = w ^ k := (mul_inv_eq_one₀ hwk0).mp h1
      rcases Nat.lt_or_ge j k with hlt | hge
      · have : w ^ (k - j) * w ^ j = w ^ k := by
          rw [← pow_add]
          congr 1
          omega
        rw [← hjq] at this
        have hj0 : w ^ j ≠ 0 := pow_ne_zero j hw0
        have hkj : w ^ (k - j) = 1 :=
          mul_right_cancel₀ hj0 (this.trans (one_mul _).symm)
        exact hord (k - j) (by omega) (by omega) hkj
      · have hj' : j = k ∨ k < j := by omega
        rcases hj' with h | hklt
        · exact hjk h
        · have : w ^ (j - k) * w ^ k = w ^ j := by
            rw [← pow_add]
            congr 1
            omega
          rw [hjq] at this
          have hkj : w ^ (j - k) = 1 :=
            mul_right_cancel₀ hwk0 (this.trans (one_mul _).symm)
          exact hord (j - k) (by omega) (by omega) hkj
    exact geom_sum_eq_zero hzN hz1

/-! ### Normalization constants and Horner evaluation -/

theorem half_power_eq_pow (n : ℕ) : half_power F n = ((2 : F)⁻¹) ^ n := by
  unfold half_power
  induction n with
  | zero => simp
  | succ n ih =>
      rw [List.range_succ, List.foldl_append, ih, List.foldl_cons, List.foldl_nil, pow_succ]

theorem inv_pow2_two_pow (t : ℕ) : inv_pow2 F (2 ^ t) = some (half_power F t) := by
  unfold inv_pow2
  rw [log2_two_pow, if_pos rfl]

theorem half_power_cast (t : ℕ) : half_power F t = (((2 : ℕ) ^ t : ℕ) : F)⁻¹ := by
  rw [half_power_eq_pow, inv_pow]
  push_cast
  rfl

theorem horner_eq_sum (l : List F) (x : F) :
    horner l x = ∑ k ∈ Finset.range l.length, l.getD k 0 * x ^ k := by
  induction l with
  | nil => simp [horner]
  | cons c l ih =>
      have hc : horner (c :: l) x = horner l x * x + c := rfl
      rw [hc, ih, List.length_cons, Finset.sum_range_succ', Finset.sum_mul]
      simp only [List.getD_cons_succ, List.getD_cons_zero, pow_zero, mul_one]
      congr 1
      refine Finset.sum_congr rfl ?_
      intro k _
      ring

theorem horner_map_range (g : ℕ → F) (n : ℕ) (x : F) :
    horner ((List.range n).map g) x = ∑ k ∈ Finset.range n, g k * x ^ k := by
  rw [horner_eq_sum]
  simp only [List.length_map, List.length_range]
  refine Finset.sum_congr rfl ?_
  intro k hk
  rw [getD_map_range _ (Finset.mem_range.mp hk)]

/-! ### The barycentric evaluator equals inverse NTT plus Horner -/

theorem rhizomes_eq_horner_powers (t : ℕ) (w : F)
    (hw : 1 ≤ t → w ^ (2 ^ (t - 1)) = -1)
    (poly : List F) (hlen : poly.length = 2 ^ t) (x : F) :
    poly_eval_rhizomes poly ((List.range (2 ^ t)).map (w ^ ·)) x
      = horner (intt_coeffs w (2 ^ t) poly) x := by
  have hrslen : ((List.range (2 ^ t)).map (w ^ ·)).length = 2 ^ t := by simp
  have hN1 : 1 ≤ 2 ^ t := Nat.one_le_two_pow
  cases t with
  | zero =>
      rw [rhizomes_closed_form poly _ x (by omega) (by rw [hlen, hrslen])]
      unfold intt_coeffs
      rw [horner_map_range]
      simp [hlen, hrslen]
  | succ t' =>
      set N := 2 ^ (t' + 1) with hNdef
      have hw' : w ^ (2 ^ t') = -1 := by simpa using hw (by omega)
      have hwN : w ^ N = 1 := by
        have : N = 2 ^ t' * 2 := by rw [hNdef]; ring
        rw [this, pow_mul, hw']
        ring
      have hN2 : 2 ≤ N := by
        calc 2 = 2 ^ 1 := by norm_num
        _ ≤ N := Nat.pow_le_pow_right (by norm_num) (by omega)
      have hNeven : Even N := by
        refine ⟨2 ^ t', ?_⟩
        rw [hNdef]
        ring
      rw [rhizomes_closed_form poly _ x (by omega) (by rw [hlen, hrslen])]
      rw [hlen, hrslen, if_pos (by omega), Finset.Ico_self, Finset.prod_empty, mul_one]
      rw [inv_pow2_two_pow, Option.getD_some, half_power_cast]
      have hstep : ∀ j ∈ Finset.range N,
          (if j = 0 then 1 else ((List.range N).map (w ^ ·)).getD j 0) * poly.getD j 0 *
            ∏ i ∈ (Finset.range N).erase j, (((List.range N).map (w ^ ·)).getD i 0 - x)
          = -(poly.getD j 0 *
              ∑ k ∈ Finset.range N, (w⁻¹) ^ (j * k) * x ^ k) := by
        intro j hj
        have hj' : j < N := Finset.mem_range.mp hj
        have hcj : (if j = 0 then 1 else ((List.range N).map (w ^ ·)).getD j 0) = w ^ j := by
          by_cases hj0 : j = 0
          · rw [if_pos hj0, hj0, pow_zero]
          · rw [if_neg hj0, getD_map_range _ hj']
        have hprod1 : ∏ i ∈ (Finset.range N).erase j,
            (((List.range N).map (w ^ ·)).getD i 0 - x)
            = ∏ i ∈ (Finset.range N).erase j, (w ^ i - x) := by
          refine Finset.prod_congr rfl ?_
          intro i hi
          have hi' : i < N := Finset.mem_range.mp (Finset.mem_of_mem_erase hi)
          rw [getD_map_range _ hi']
        have hprod2 : ∏ i ∈ (Finset.range N).erase j, (w ^ i - x)
            = (-1 : F) ^ (N - 1) * ∏ i ∈ (Finset.range N).erase j, (x - w ^ i) := by
          have hneg : ∀ i ∈ (Finset.range N).erase j, w ^ i - x = -1 * (x - w ^ i) := by
            intro i _
            ring
          rw [Finset.prod_congr rfl hneg, Finset.prod_mul_distrib, Finset.prod_const,
            Finset.card_erase_of_mem hj, Finset.card_range]
        have hodd : Odd (N - 1) := Nat.Even.sub_odd hN1 hNeven odd_one
        have hneg1 : (-1 : F) ^ (N - 1) = -1 := hodd.neg_one_pow
        have hprod3 : ∏ i ∈ (Finset.range N).erase j, (x - w ^ i)
            = ∑ k ∈ Finset.range N, x ^ k * (w ^ j) ^ (N - 1 - k) :=
          prod_erase_eval t' w hw' j hj' x
        have hwjN : (w ^ j) ^ N = 1 := by
          rw [← pow_mul, mul_comm, pow_mul, hwN, one_pow]
        have hwjpow : ∀ k ∈ Finset.range N,
            w ^ j * (x ^ k * (w ^ j) ^ (N - 1 - k))
              = (w⁻¹) ^ (j * k) * x ^ k := by
          intro k hk
          have hk' : k < N := Finset.mem_range.mp hk
          have e1 : w ^ j * (w ^ j) ^ (N - 1 - k) = (w ^ j) ^ (N - k) := by
            rw [← pow_succ' (w ^ j) (N - 1 - k)]
            congr 1
            omega
          have e2 : (w ^ j) ^ (N - k) * (w ^ j) ^ k = 1 := by
            rw [← pow_add]
            have : N - k + k = N := by omega
            rw [this, hwjN]
          have e3 : (w ^ j) ^ (N - k) = ((w ^ j) ^ k)⁻¹ := eq_inv_of_mul_eq_one_left e2
          have e4 : ((w ^ j) ^ k)⁻¹ = (w⁻¹) ^ (j * k) := by
            rw [← pow_mul, inv_pow]
          calc w ^ j * (x ^ k * (w ^ j) ^ (N - 1 - k))
              = (w ^ j * (w ^ j) ^ (N - 1 - k)) * x ^ k := by ring
          _ = (w ^ j) ^ (N - k) * x ^ k := by rw [e1]
          _ = (w⁻¹) ^ (j * k) * x ^ k := by rw [e3, e4]
        rw [hcj, hprod1, hprod2, hneg1, hprod3]
        rw [show ∀ a c : F, w ^ j * a * (-1 * c) = -(a * (w ^ j * c)) from by intros; ring]
        rw [Finset.mul_sum, Finset.sum_congr rfl hwjpow]
      rw [Finset.sum_congr rfl hstep]
      unfold intt_coeffs
      rw [horner_map_range]
      have hrhs : ∀ k ∈ Finset.range N,
          ((N : F)⁻¹ * ∑ j ∈ Finset.range N, poly.getD j 0 * (w⁻¹) ^ (j * k)) * x ^ k
            = (N : F)⁻¹ * ∑ j ∈ Finset.range N, poly.getD j 0 * ((w⁻¹) ^ (j * k) * x ^ k) := by
        intro k _
        rw [mul_assoc, Finset.sum_mul]
        congr 1
        refine Finset.sum_congr rfl ?_
        intro j _
        ring
      rw [Finset.sum_congr rfl hrhs, ← Finset.mul_sum, Finset.sum_comm]
      have hlhs : ∑ j ∈ Finset.range N,
          -(poly.getD j 0 * ∑ k ∈ Finset.range N, (w⁻¹) ^ (j * k) * x ^ k)
          = -∑ j ∈ Finset.range N, ∑ k ∈ Finset.range N,
              poly.getD j 0 * ((w⁻¹) ^ (j * k) * x ^ k) := by
        rw [← Finset.sum_neg_distrib]
        refine Finset.sum_congr rfl ?_
        intro j _
        rw [Finset.mul_sum]
      rw [hlhs, neg_mul_neg]

theorem sum_intt_pow (t : ℕ) (w : F) (hw : 1 ≤ t → w ^ (2 ^ (t - 1)) = -1)
    (h2 : (2 : F) ≠ 0) (y : List F) (j : ℕ) (hj : j < 2 ^ t) :
    ∑ m ∈ Finset.range (2 ^ t), (intt_coeffs w (2 ^ t) y).getD m 0 * (w ^ j) ^ m
      = y.getD j 0 := by
  cases t with
  | zero =>
      have hj0 : j = 0 := by omega
      subst hj0
      unfold intt_coeffs
      simp
  | succ t' =>
      set N := 2 ^ (t' + 1) with hNdef
      have hw' : w ^ (2 ^ t') = -1 := by simpa using hw (by omega)
      have hwN : w ^ N = 1 := by
        have : N = 2 ^ t' * 2 := by rw [hNdef]; ring
        rw [this, pow_mul, hw']
        ring
      have hNpos : 0 < N := Nat.pos_pow_of_pos _ (by norm_num)
      have hord := chain_pow_ne_one t' w hw' h2
      have hNne : ((N : ℕ) : F) ≠ 0 := by
        rw [hNdef]
        push_cast
        exact pow_ne_zero _ h2
      have hterm : ∀ m ∈ Finset.range N,
          (intt_coeffs w N y).getD m 0 * (w ^ j) ^ m
            = (N : F)⁻¹ * ∑ i ∈ Finset.range N, y.getD i 0 * (w ^ j * (w⁻¹) ^ i) ^ m := by
        intro m hm
        have hm' : m < N := Finset.mem_range.mp hm
        unfold intt_coeffs
        rw [getD_map_range _ hm', mul_assoc, Finset.sum_mul]
        congr 1
        refine Finset.sum_congr rfl ?_
        intro i _
        rw [mul_pow, ← pow_mul, ← pow_mul, mul_comm i m, mul_comm j m, pow_mul, pow_mul]
        ring
      rw [Finset.sum_congr rfl hterm, ← Finset.mul_sum, Finset.sum_comm]
      have hinner : ∀ i ∈ Finset.range N,
          ∑ m ∈ Finset.range N, y.getD i 0 * (w ^ j * (w⁻¹) ^ i) ^ m
            = y.getD i 0 * (if j = i then ((N : ℕ) : F) else 0) := by
        intro i hi
        rw [← Finset.mul_sum, orth_sum N hNpos w hwN hord j i hj (Finset.mem_range.mp hi)]
      rw [Finset.sum_congr rfl hinner]
      have hpick : ∑ i ∈ Finset.range N, y.getD i 0 * (if j = i then ((N : ℕ) : F) else 0)
          = y.getD j 0 * ((N : ℕ) : F) := by
        rw [Finset.sum_eq_single j]
        · rw [if_pos rfl]
        · intro b _ hbj
          rw [if_neg (Ne.symm hbj), mul_zero]
        · intro hjn
          exact absurd (Finset.mem_range.mpr hj) hjn
      rw [hpick]
      field_simp

/-! ### Correctness of the incremental root-table builder -/

theorem getD_set_ne {α : Type} (l : List α) (d : α) (i j : ℕ) (v : α) (h : i ≠ j) :
    (l.set i v).getD j d = l.getD j d := by
  simp [List.getD_eq_getElem?_getD, List.getElem?_set_ne h]

theorem getD_set_self {α : Type} (l : List α) (d : α) (i : ℕ) (v : α) (h : i < l.length) :
    (l.set i v).getD i d = v := by
  simp [List.getD_eq_getElem?_getD, List.getElem?_set_self, h]

theorem getD_eq_getElem {α : Type} (l : List α) (d : α) {i : ℕ} (h : i < l.length) :
    l.getD i d = l[i] := by
  simp [List.getD_eq_getElem?_getD, List.getElem?_eq_getElem h]

theorem copy_fold_spec : ∀ (q : ℕ) (A B : List F), 2 * q < A.length →
    B = ((List.range' 1 q).reverse).foldl (fun r j => r.set (2 * j) (r.getD j 0)) A →
    B.length = A.length ∧
    (∀ j, 1 ≤ j → j ≤ q → B.getD (2 * j) 0 = A.getD j 0) ∧
    (∀ m, (∀ j, 1 ≤ j → j ≤ q → m ≠ 2 * j) → B.getD m 0 = A.getD m 0) := by
  intro q
  induction q with
  | zero =>
      intro A B _ hB
      subst hB
      exact ⟨rfl, by omega, fun m _ => rfl⟩
  | succ q ih =>
      intro A B hbound hB
      have hlist : (List.range' 1 (q + 1)).reverse
          = (1 + q) :: (List.range' 1 q).reverse := by
        have := @List.range'_concat 1 1 q
        rw [this]
        simp
      rw [hlist, List.foldl_cons] at hB
      set A1 := A.set (2 * (1 + q)) (A.getD (1 + q) 0) with hA1
      have hA1len : A1.length = A.length := by
        rw [hA1, List.length_set]
      obtain ⟨ihlen, ih2, ih3⟩ := ih A1 B (by omega) hB
      have hget1q : A1.getD (1 + q) 0 = A.getD (1 + q) 0 := by
        rw [hA1]
        exact getD_set_ne _ _ _ _ _ (by omega)
      refine ⟨by omega, ?_, ?_⟩
      · intro j hj1 hjq
        by_cases hjq' : j ≤ q
        · rw [ih2 j hj1 hjq']
          rw [hA1]
          exact getD_set_ne _ _ _ _ _ (by omega)
        · have hj : j = q + 1 := by omega
          subst hj
          have hm : ∀ j', 1 ≤ j' → j' ≤ q → 2 * (q + 1) ≠ 2 * j' := by omega
          rw [ih3 _ hm, hA1]
          have h2q : (2 * (1 + q)) = 2 * (q + 1) := by omega
          rw [h2q] at hA1 ⊢
          rw [show (1 + q) = (q + 1) from by omega]
          exact getD_set_self _ _ _ _ (by omega)
      · intro m hm
        have hm' : ∀ j, 1 ≤ j → j ≤ q → m ≠ 2 * j := by
          intro j h1 h2
          exact hm j h1 (by omega)
        rw [ih3 m hm', hA1]
        exact getD_set_ne _ _ _ _ _ (by
          have := hm (q + 1) (by omega) (by omega)
          omega)

theorem odd_fold_spec (w : F) (mid n : ℕ) (hmid : 2 ≤ mid) (hmid2 : mid % 2 = 0)
    (hn : 2 * mid ≤ n) (hwmid : w ^ mid = -1) :
    ∀ (c j0 : ℕ) (A : List F), A.length = n →
      3 ≤ j0 → j0 % 2 = 1 → j0 + 2 * c = mid + 1 →
      (∀ m, m < 2 * mid →
        (m % 2 = 0 ∨ (m % 2 = 1 ∧ (m < j0 ∨ (mid ≤ m ∧ m - mid < j0)))) →
        A.getD m 0 = w ^ m) →
      ((List.range' j0 c 2).foldl
          (fun r j =>
            let r1 := r.set j (w * r.getD (j - 1) 0)
            r1.set (j + mid) (-(r1.getD j 0))) A).length = n ∧
      ∀ m, m < 2 * mid →
        ((List.range' j0 c 2).foldl
          (fun r j =>
            let r1 := r.set j (w * r.getD (j - 1) 0)
            r1.set (j + mid) (-(r1.getD j 0))) A).getD m 0 = w ^ m := by
  intro c
  induction c with
  | zero =>
      intro j0 A hlen h3 hodd hsum hinv
      refine ⟨hlen, ?_⟩
      intro m hm
      refine hinv m hm ?_
      rcases Nat.even_or_odd m with he | ho
      · left
        exact Nat.even_iff.mp he
      · right
        have hm2 : m % 2 = 1 := Nat.odd_iff.mp ho
        constructor
        · exact hm2
        · omega
  | succ c ih =>
      intro j0 A hlen h3 hodd hsum hinv
      rw [List.range'_succ, List.foldl_cons]
      have hj0lt : j0 < mid := by omega
      have hj0n : j0 < n := by omega
      have hj0midn : j0 + mid < n := by omega
      set r1 := A.set j0 (w * A.getD (j0 - 1) 0) with hr1
      set A' := r1.set (j0 + mid) (-(r1.getD j0 0)) with hA'
      have hr1len : r1.length = A.length := List.length_set A _ _
      have hA'len : A'.length = A.length := by
        rw [hA']
        rw [List.length_set, hr1len]
      have hAj0m1 : A.getD (j0 - 1) 0 = w ^ (j0 - 1) := by
        refine hinv (j0 - 1) (by omega) ?_
        left
        omega
      have hr1j0 : r1.getD j0 0 = w ^ j0 := by
        rw [hr1, hAj0m1]
        have := getD_set_self A (0 : F) j0 (w * w ^ (j0 - 1)) (by omega)
        rw [this]
        rw [← pow_succ' w (j0 - 1)]
        congr 1
        omega
      have hA'j0 : A'.getD j0 0 = w ^ j0 := by
        rw [hA', getD_set_ne _ _ _ _ _ (by omega), hr1j0]
      have hA'j0mid : A'.getD (j0 + mid) 0 = w ^ (j0 + mid) := by
        rw [hA', hr1j0]
        have := getD_set_self r1 (0 : F) (j0 + mid) (-(w ^ j0)) (by omega)
        rw [this, pow_add, hwmid]
        ring
      have hA'other : ∀ m, m ≠ j0 → m ≠ j0 + mid → A'.getD m 0 = A.getD m 0 := by
        intro m hm1 hm2
        rw [hA', getD_set_ne _ _ _ _ _ (Ne.symm hm2), hr1, getD_set_ne _ _ _ _ _ (Ne.symm hm1)]
      refine ih (j0 + 2) A' (by omega) (by omega) (by omega) (by omega) ?_
      intro m hm hcond
      by_cases hmj0 : m = j0
      · rw [hmj0]
        exact hA'j0
      · by_cases hmj0mid : m = j0 + mid
        · rw [hmj0mid]
          exact hA'j0mid
        · rw [hA'other m hmj0 hmj0mid]
          refine hinv m hm ?_
          rcases hcond with he | ⟨ho, hrange⟩
          · left
            exact he
          · right
            refine ⟨ho, ?_⟩
            omega

theorem nthRootStep_spec (root : ℕ → F) (i n : ℕ) (hi : 2 ≤ i) (hn : 2 ^ i ≤ n)
    (hsq : (root i) ^ 2 = root (i - 1)) (hmidpow : (root i) ^ (2 ^ (i - 1)) = -1)
    (A : List F) (hlen : A.length = n)
    (hprev : ∀ m, m < 2 ^ (i - 1) → A.getD m 0 = (root (i - 1)) ^ m) :
    (nthRootStep root A i).length = n ∧
    ∀ m, m < 2 ^ i → (nthRootStep root A i).getD m 0 = (root i) ^ m := by
  set w := root i with hwdef
  set mid := 2 ^ (i - 1) with hmiddef
  have hmid2le : 2 ≤ mid := by
    rw [hmiddef]
    calc 2 = 2 ^ 1 := by norm_num
    _ ≤ 2 ^ (i - 1) := Nat.pow_le_pow_right (by norm_num) (by omega)
  have h2mid : 2 * mid = 2 ^ i := by
    rw [hmiddef, ← pow_succ']
    congr 1
    omega
  have hmideven : mid % 2 = 0 := by
    have : (2 : ℕ) ∣ mid := by
      rw [hmiddef]
      exact dvd_pow_self 2 (by omega)
    omega
  have h2midn : 2 * mid ≤ n := by omega
  unfold nthRootStep
  rw [← hwdef, ← hmiddef]
  set B := nthRootCopy mid A with hBdef
  obtain ⟨hBlen, hB2, hB3⟩ :=
    copy_fold_spec (mid - 1) A B (by omega) (by rfl)
  have hBeven : ∀ m, m < 2 * mid → m % 2 = 0 → B.getD m 0 = w ^ m := by
    intro m hm hme
    rcases Nat.eq_zero_or_pos m with h0 | hpos
    · subst h0
      have : B.getD 0 0 = A.getD 0 0 := hB3 0 (by omega)
      rw [this, hprev 0 (by omega)]
      simp
    · obtain ⟨j, hj⟩ : ∃ j, m = 2 * j := ⟨m / 2, by omega⟩
      subst hj
      have hj1 : 1 ≤ j := by omega
      have hjq : j ≤ mid - 1 := by omega
      rw [hB2 j hj1 hjq, hprev j (by omega), ← hsq]
      rw [← pow_mul]
  set C := (B.set 1 w).set (1 + mid) (-w) with hCdef
  have hClen : C.length = n := by
    rw [hCdef, List.length_set, List.length_set, hBlen, hlen]
  have hCinv : ∀ m, m < 2 * mid →
      (m % 2 = 0 ∨ (m % 2 = 1 ∧ (m < 3 ∨ (mid ≤ m ∧ m - mid < 3)))) →
      C.getD m 0 = w ^ m := by
    intro m hm hcond
    rcases hcond with he | ⟨ho, hrange⟩
    · rw [hCdef, getD_set_ne _ _ _ _ _ (by omega), getD_set_ne _ _ _ _ _ (by omega)]
      exact hBeven m hm he
    · rcases hrange with h3 | ⟨hge, hlt⟩
      · have hm1 : m = 1 := by omega
        subst hm1
        rw [hCdef, getD_set_ne _ _ _ _ _ (by omega)]
        have : (B.set 1 w).getD 1 0 = w := getD_set_self B 0 1 w (by omega)
        rw [this, pow_one]
      · have hm1 : m = 1 + mid := by omega
        subst hm1
        rw [hCdef]
        have : ((B.set 1 w).set (1 + mid) (-w)).getD (1 + mid) 0 = -w :=
          getD_set_self _ 0 (1 + mid) (-w) (by
            rw [List.length_set, hBlen, hlen]
            omega)
        rw [this, pow_add, pow_one, hmidpow]
        ring
  have hfinal := odd_fold_spec w mid n hmid2le hmideven h2midn hmidpow
    ((mid - 2) / 2) 3 C hClen (by omega) (by omega) (by omega) hCinv
  unfold nthRootOdd
  rw [← h2mid]
  exact hfinal

theorem root_chain_pow (root : ℕ → F) (t : ℕ)
    (hchain : ∀ k, k < t → (root (k + 1)) ^ 2 = root k)
    (hroot1 : 1 ≤ t → root 1 = -1) :
    ∀ i, 1 ≤ i → i ≤ t → (root i) ^ (2 ^ (i - 1)) = -1 := by
  intro i
  induction i with
  | zero => omega
  | succ i ih =>
      intro _ hit
      rcases Nat.eq_zero_or_pos i with h0 | hpos
      · subst h0
        simpa using hroot1 (by omega)
      · have hstep : (root (i + 1)) ^ (2 ^ (i + 1 - 1))
            = ((root (i + 1)) ^ 2) ^ (2 ^ (i - 1)) := by
          rw [← pow_mul]
          congr 1
          have : i + 1 - 1 = i := by omega
          rw [this, ← pow_succ']
          congr 1
          omega
        rw [hstep, hchain i (by omega)]
        exact ih hpos (by omega)

theorem nth_root_powers_eq_powers (root : ℕ → F) (t : ℕ)
    (hchain : ∀ k, k < t → (root (k + 1)) ^ 2 = root k)
    (hroot1 : 1 ≤ t → root 1 = -1) :
    nth_root_powers root (2 ^ t)
      = some ((List.range (2 ^ t)).map ((root t) ^ ·)) := by
  unfold nth_root_powers
  rw [log2_two_pow, if_pos rfl]
  dsimp only
  rcases Nat.eq_zero_or_pos t with ht0 | htpos
  · subst ht0
    norm_num
    rw [show List.range 1 = [0] from rfl]
    simp
  · have hn2 : 2 ≤ 2 ^ t := by
      calc 2 = 2 ^ 1 := by norm_num
      _ ≤ 2 ^ t := Nat.pow_le_pow_right (by norm_num) (by omega)
    have h1t : 1 < 2 ^ t := by omega
    rw [if_pos h1t]
    set init := (((List.replicate (2 ^ t) (0 : F)).set 0 1).set 1 (-1)) with hinit
    have hinitlen : init.length = 2 ^ t := by
      rw [hinit]
      simp
    have hinitinv : ∀ m, m < 2 ^ 1 → init.getD m 0 = (root 1) ^ m := by
      intro m hm
      interval_cases m
      · rw [hinit, getD_set_ne _ _ _ _ _ (by omega), getD_set_self _ _ _ _ (by simp)]
        simp
      · rw [hinit, getD_set_self _ _ _ _ (by simp; omega), hroot1 htpos]
        simp
    have hfold : ∀ c, c ≤ t - 1 →
        ((List.range' 2 c).foldl (nthRootStep root) init).length = 2 ^ t ∧
        ∀ m, m < 2 ^ (c + 1) →
          ((List.range' 2 c).foldl (nthRootStep root) init).getD m 0
            = (root (c + 1)) ^ m := by
      intro c
      induction c with
      | zero =>
          intro _
          exact ⟨hinitlen, hinitinv⟩
      | succ c ihc =>
          intro hct
          obtain ⟨ihlen, ihinv⟩ := ihc (by omega)
          have hr : List.range' 2 (c + 1) = List.range' 2 c ++ [2 + c] := by
            simpa using @List.range'_concat 1 2 c
          rw [hr, List.foldl_append, List.foldl_cons, List.foldl_nil]
          have hi2 : 2 ≤ 2 + c := by omega
          have hin : 2 ^ (2 + c) ≤ 2 ^ t := Nat.pow_le_pow_right (by norm_num) (by omega)
          have hsq : (root (2 + c)) ^ 2 = root (2 + c - 1) := by
            have h2 : 2 + c - 1 = 1 + c := by omega
            rw [h2]
            have h1 : 2 + c = (1 + c) + 1 := by omega
            rw [h1]
            exact hchain (1 + c) (by omega)
          have hmidpow : (root (2 + c)) ^ (2 ^ (2 + c - 1)) = -1 :=
            root_chain_pow root t hchain hroot1 (2 + c) (by omega) (by omega)
          have hprev : ∀ m, m < 2 ^ (2 + c - 1) →
              ((List.range' 2 c).foldl (nthRootStep root) init).getD m 0
                = (root (2 + c - 1)) ^ m := by
            intro m hm
            have h2c : 2 + c - 1 = c + 1 := by omega
            rw [h2c] at hm ⊢
            exact ihinv m hm
          obtain ⟨hslen, hsinv⟩ := nthRootStep_spec root (2 + c) (2 ^ t) hi2 hin hsq
            hmidpow _ ihlen hprev
          refine ⟨hslen, ?_⟩
          intro m hm
          have h2c : c + 1 + 1 = 2 + c := by omega
          rw [h2c] at hm ⊢
          exact hsinv m hm
    obtain ⟨hflen, hfinv⟩ := hfold (t - 1) le_rfl
    have ht1 : t - 1 + 1 = t := by omega
    rw [ht1] at hfinv
    refine congrArg some ?_
    refine List.ext_getElem ?_ ?_
    · simp [hflen]
    · intro i h1 h2
      have hi : i < 2 ^ t := by
        rw [hflen] at h1
        exact h1
      rw [← getD_eq_getElem _ (0 : F) h1, hfinv i hi]
      simp [hi]

theorem successorsTake_eq (wn : F) : ∀ (n : ℕ) (x : F),
    successorsTake wn n x = (List.range n).map (fun i => x * wn ^ i) := by
  intro n
  induction n with
  | zero => intro x; rfl
  | succ n ih =>
      intro x
      rw [successorsTake, ih (x * wn), List.range_succ_eq_map]
      simp only [List.map_cons, List.map_map]
      congr 1
      · rw [pow_zero, mul_one]
      · refine List.map_congr_left ?_
        intro i _
        simp only [Function.comp_apply]
        rw [pow_succ]
        ring

theorem nth_root_powers_slow_eq (root : ℕ → F) (n : ℕ) :
    nth_root_powers_slow root n
      = (List.range n).map (fun i => (root (log2 n)) ^ i) := by
  unfold nth_root_powers_slow
  rw [successorsTake_eq]
  refine List.map_congr_left ?_
  intro i _
  rw [one_mul]

/-! ### The two branches of `extend_dimension_one` agree when `k = n - 1` -/

theorem pow_mod_eq (w : F) (n : ℕ) (hwn : w ^ n = 1) (a : ℕ) :
    w ^ (a % n) = w ^ a := by
  conv_rhs => rw [← Nat.div_add_mod a n]
  rw [pow_add, pow_mul, hwn, one_pow, one_mul]

theorem term_w_powers (t' : ℕ) (w : F) (hw : w ^ (2 ^ t') = -1)
    (i : ℕ) (hi : i < 2 ^ (t' + 1)) :
    term_w (2 ^ (t' + 1) - 1) i ((List.range (2 ^ (t' + 1))).map (w ^ ·))
      = (((2 ^ (t' + 1) : ℕ) : F) * (w ^ i) ^ (2 ^ (t' + 1) - 1))⁻¹ := by
  rw [term_w_eq_inv_prod]
  congr 1
  have hm : 2 ^ (t' + 1) - 1 + 1 = 2 ^ (t' + 1) := by
    have : 0 < 2 ^ (t' + 1) := pow_pos (by norm_num) _
    omega
  rw [hm]
  have hcongr : ∀ j ∈ (Finset.range (2 ^ (t' + 1))).erase i,
      ((List.range (2 ^ (t' + 1))).map (w ^ ·)).getD i 0 -
        ((List.range (2 ^ (t' + 1))).map (w ^ ·)).getD j 0
      = w ^ i - w ^ j := by
    intro j hj
    have hj' : j < 2 ^ (t' + 1) := Finset.mem_range.mp (Finset.mem_of_mem_erase hj)
    rw [getD_map_range _ hi, getD_map_range _ hj']
  rw [Finset.prod_congr rfl hcongr]
  exact prod_erase_self t' w hw i hi

theorem extend_one_special_eq_general (t' : ℕ) (w : F) (hw : w ^ (2 ^ t') = -1)
    (h2 : (2 : F) ≠ 0) (values : List F)
    (hlen : values.length = 2 ^ (t' + 1) - 1) :
    extend_dimension_one values ((List.range (2 ^ (t' + 1))).map (w ^ ·))
      = (∑ i ∈ Finset.range (2 ^ (t' + 1) - 1),
          values.getD i 0 *
            term_w (2 ^ (t' + 1) - 1) i ((List.range (2 ^ (t' + 1))).map (w ^ ·)))
        * (-(term_w (2 ^ (t' + 1) - 1) (2 ^ (t' + 1) - 1)
            ((List.range (2 ^ (t' + 1))).map (w ^ ·)))⁻¹) := by
  set N := 2 ^ (t' + 1) with hNdef
  have hN2 : 2 ≤ N := by
    rw [hNdef]
    calc 2 = 2 ^ 1 := by norm_num
    _ ≤ 2 ^ (t' + 1) := Nat.pow_le_pow_right (by norm_num) (by omega)
  have hwN : w ^ N = 1 := by
    have : N = 2 ^ t' * 2 := by rw [hNdef]; ring
    rw [this, pow_mul, hw]
    ring
  have hNne : ((N : ℕ) : F) ≠ 0 := by
    rw [hNdef]
    push_cast
    exact pow_ne_zero _ h2
  have hhalf : N / 2 = 2 ^ t' := by
    rw [hNdef, pow_succ]
    exact Nat.mul_div_cancel _ (by norm_num)
  have hrslen : ((List.range N).map (w ^ ·)).length = N := by simp
  -- the special branch is taken
  unfold extend_dimension_one
  dsimp only
  rw [hrslen, hlen, if_pos (by omega), if_pos rfl]
  rw [foldl_add_eq_sum, zero_add]
  -- evaluate the special branch
  have hspecial : ∀ i ∈ Finset.range (N - 1),
      values.getD i 0 * ((List.range N).map (w ^ ·)).getD ((1 + N / 2 + i) % N) 0
        = -(w * (values.getD i 0 * w ^ i)) := by
    intro i _
    have hmod : (1 + N / 2 + i) % N < N := Nat.mod_lt _ (by omega)
    rw [getD_map_range _ hmod, pow_mod_eq w N hwN, hhalf, pow_add, pow_add, pow_one, hw]
    ring
  rw [Finset.sum_congr rfl hspecial, Finset.sum_neg_distrib, ← Finset.mul_sum]
  -- evaluate the general formula
  have hterm : ∀ i, i < N →
      term_w (N - 1) i ((List.range N).map (w ^ ·))
        = ((N : ℕ) : F)⁻¹ * w ^ i := by
    intro i hi
    rw [term_w_powers t' w hw i hi]
    have hwi1 : (w ^ i) ^ (N - 1) = (w ^ i)⁻¹ := by
      refine eq_inv_of_mul_eq_one_left ?_
      rw [← pow_succ]
      have : N - 1 + 1 = N := by omega
      rw [this, ← pow_mul, mul_comm, pow_mul, hwN, one_pow]
    rw [hwi1, mul_inv_rev, inv_inv]
    ring
  have hgen : ∀ i ∈ Finset.range (N - 1),
      values.getD i 0 * term_w (N - 1) i ((List.range N).map (w ^ ·))
        = values.getD i 0 * (((N : ℕ) : F)⁻¹ * w ^ i) := by
    intro i hi
    rw [hterm i (by have := Finset.mem_range.mp hi; omega)]
  rw [Finset.sum_congr rfl hgen, hterm (N - 1) (by omega)]
  have hwN1 : w ^ (N - 1) = w⁻¹ := by
    refine eq_inv_of_mul_eq_one_left ?_
    rw [← pow_succ]
    have : N - 1 + 1 = N := by omega
    rw [this, hwN]
  have hw0 : w ≠ 0 := w_ne_zero (by omega) hwN
  rw [hwN1]
  rw [show (((N : ℕ) : F)⁻¹ * w⁻¹)⁻¹ = ((N : ℕ) : F) * w from by
    rw [mul_inv_rev, inv_inv, inv_inv]
    ring]
  have hpull : ∑ i ∈ Finset.range (N - 1), values.getD i 0 * (((N : ℕ) : F)⁻¹ * w ^ i)
      = ((N : ℕ) : F)⁻¹ * ∑ i ∈ Finset.range (N - 1), values.getD i 0 * w ^ i := by
    rw [Finset.mul_sum]
    refine Finset.sum_congr rfl ?_
    intro i _
    ring
  rw [hpull]
  field_simp
  ring

/-! ### Dimension doubling preserves the interpolant -/

theorem extend_double_some (root : ℕ → F) (values : List F) (n : ℕ) (out : List F)
    (h : extend_dimension_double root values n = some out) :
    2 * n ≤ values.length ∧ n = 2 ^ log2 n ∧
    out = perfect_shuffle (values.take n ++ ntt_star (root (log2 n + 1)) n
        (intt_coeffs (root (log2 n)) n (values.take n))) ++ values.drop (2 * n) := by
  unfold extend_dimension_double at h
  by_cases hc : 2 * n ≤ values.length ∧ n = 2 ^ log2 n
  · rw [if_pos hc] at h
    exact ⟨hc.1, hc.2, (Option.some.inj h).symm⟩
  · rw [if_neg hc] at h
    exact absurd h (by simp)

theorem length_ntt_star (w2 : F) (n : ℕ) (a : List F) : (ntt_star w2 n a).length = n := by
  unfold ntt_star
  simp

theorem length_intt_coeffs (w : F) (n : ℕ) (y : List F) :
    (intt_coeffs w n y).length = n := by
  unfold intt_coeffs
  simp

theorem extend_double_core (t : ℕ) (w w2 : F)
    (hsq : w2 ^ 2 = w)
    (hw : 1 ≤ t → w ^ (2 ^ (t - 1)) = -1)
    (hw2 : w2 ^ (2 ^ t) = -1)
    (h2 : (2 : F) ≠ 0)
    (y : List F) (hylen : y.length = 2 ^ t) (x : F) :
    horner (intt_coeffs w2 (2 ^ (t + 1))
        (interleave y (ntt_star w2 (2 ^ t) (intt_coeffs w (2 ^ t) y)))) x
      = horner (intt_coeffs w (2 ^ t) y) x := by
  set n := 2 ^ t with hndef
  set N := 2 ^ (t + 1) with hNdef
  set a := intt_coeffs w n y with hadef
  set news := ntt_star w2 n a with hnewsdef
  set S := interleave y news with hSdef
  have hnN : N = n + n := by
    rw [hNdef, hndef]
    ring
  have hnpos : 0 < n := pow_pos (by norm_num) _
  have hNpos : 0 < N := pow_pos (by norm_num) _
  have hnewslen : news.length = n := by
    rw [hnewsdef]
    exact length_ntt_star w2 n a
  have hw2N : w2 ^ N = 1 := by
    have : N = 2 ^ t * 2 := by rw [hNdef]; ring
    rw [this, pow_mul, hw2]
    ring
  have hord := chain_pow_ne_one t w2 hw2 h2
  have hNne : ((N : ℕ) : F) ≠ 0 := by
    rw [hNdef]
    push_cast
    exact pow_ne_zero _ h2
  have hS : ∀ i, i < N → S.getD i 0 = ∑ m ∈ Finset.range n, a.getD m 0 * (w2 ^ i) ^ m := by
    intro i hi
    rcases Nat.even_or_odd i with he | ho
    · obtain ⟨j, hj⟩ := he
      have hj2 : i = 2 * j := by omega
      subst hj2
      have hjn : j < n := by omega
      rw [hSdef, interleave_getD_even 0 y news j (by omega) (by omega)]
      have hterm : ∀ m ∈ Finset.range n,
          a.getD m 0 * (w2 ^ (2 * j)) ^ m = a.getD m 0 * (w ^ j) ^ m := by
        intro m _
        rw [pow_mul, hsq]
      rw [Finset.sum_congr rfl hterm]
      exact (sum_intt_pow t w hw h2 y j (hndef ▸ hjn)).symm
    · obtain ⟨j, hj⟩ := ho
      have hjn : j < n := by omega
      subst hj
      rw [hSdef, interleave_getD_odd 0 y news j (by omega) (by omega)]
      rw [hnewsdef]
      unfold ntt_star
      rw [getD_map_range _ (by omega)]
  have hcoeff : ∀ k, k < N →
      ((N : ℕ) : F)⁻¹ * ∑ i ∈ Finset.range N, S.getD i 0 * (w2⁻¹) ^ (i * k)
        = if k < n then a.getD k 0 else 0 := by
    intro k hk
    have hsum1 : ∀ i ∈ Finset.range N,
        S.getD i 0 * (w2⁻¹) ^ (i * k)
          = ∑ m ∈ Finset.range n, a.getD m 0 * (w2 ^ m * (w2⁻¹) ^ k) ^ i := by
      intro i hi
      rw [hS i (Finset.mem_range.mp hi), Finset.sum_mul]
      refine Finset.sum_congr rfl ?_
      intro m _
      have e1 : (w2 ^ i) ^ m = (w2 ^ m) ^ i := pow_right_comm w2 i m
      have e2 : (w2⁻¹) ^ (i * k) = ((w2⁻¹) ^ k) ^ i := by
        rw [mul_comm i k, pow_mul]
      rw [e1, e2, mul_assoc, ← mul_pow]
    rw [Finset.sum_congr rfl hsum1, Finset.sum_comm]
    have hinner : ∀ m ∈ Finset.range n,
        ∑ i ∈ Finset.range N, a.getD m 0 * (w2 ^ m * (w2⁻¹) ^ k) ^ i
          = a.getD m 0 * (if m = k then ((N : ℕ) : F) else 0) := by
      intro m hm
      rw [← Finset.mul_sum,
        orth_sum N hNpos w2 hw2N hord m k (by have := Finset.mem_range.mp hm; omega) hk]
    rw [Finset.sum_congr rfl hinner]
    by_cases hkn : k < n
    · rw [if_pos hkn]
      have hpick : ∑ m ∈ Finset.range n, a.getD m 0 * (if m = k then ((N : ℕ) : F) else 0)
          = a.getD k 0 * ((N : ℕ) : F) := by
        rw [Finset.sum_eq_single k]
        · rw [if_pos rfl]
        · intro b _ hbk
          rw [if_neg hbk, mul_zero]
        · intro hkn'
          exact absurd (Finset.mem_range.mpr hkn) hkn'
      rw [hpick]
      field_simp
    · rw [if_neg hkn]
      have hzero : ∀ m ∈ Finset.range n,
          a.getD m 0 * (if m = k then ((N : ℕ) : F) else 0) = 0 := by
        intro m hm
        have : m ≠ k := by
          have := Finset.mem_range.mp hm
          omega
        rw [if_neg this, mul_zero]
      rw [Finset.sum_congr rfl hzero, Finset.sum_const_zero, mul_zero]
  rw [hadef]
  unfold intt_coeffs
  rw [horner_map_range, horner_map_range]
  have hsplit : ∀ k ∈ Finset.range N,
      (((N : ℕ) : F)⁻¹ * ∑ i ∈ Finset.range N, S.getD i 0 * (w2⁻¹) ^ (i * k)) * x ^ k
        = (if k < n then a.getD k 0 else 0) * x ^ k := by
    intro k hk
    rw [hcoeff k (Finset.mem_range.mp hk)]
  rw [Finset.sum_congr rfl hsplit, hnN, Finset.sum_range_add]
  have hupper : ∀ k ∈ Finset.range n,
      (if n + k < n then a.getD (n + k) 0 else 0) * x ^ (n + k) = 0 := by
    intro k _
    rw [if_neg (by omega), zero_mul]
  rw [Finset.sum_congr rfl hupper, Finset.sum_const_zero, add_zero]
  refine Finset.sum_congr rfl ?_
  intro k hk
  have hkn : k < n := Finset.mem_range.mp hk
  rw [if_pos hkn, hadef]
  unfold intt_coeffs
  rw [getD_map_range _ hkn]

theorem getD_append_from {α : Type} (A B : List α) (d : α) (i : ℕ) (h : A.length ≤ i) :
    (A ++ B).getD i d = B.getD (i - A.length) d := by
  simp [List.getD_eq_getElem?_getD, List.getElem?_append_right h]

theorem getD_drop {α : Type} (l : List α) (d : α) (k j : ℕ) :
    (l.drop k).getD j d = l.getD (k + j) d := by
  simp [List.getD_eq_getElem?_getD, List.getElem?_drop]

/-! ### The claims -/

/-- C1: for every power-of-two `N`, polynomial of `N` values and point `x`,
`poly_eval_rhizomes(poly, nth_root_powers(N), x)` equals the reference
evaluator that inverse-NTT-transforms `poly` into coefficient form (with the
`1/N` normalization) and evaluates by Horner's method at `x`. -/
theorem claim_C1_rhizomes_eq_monomial (F : Type) [Field F] (root : ℕ → F) (t : ℕ)
    (hchain : ∀ k, k < t → (root (k + 1)) ^ 2 = root k)
    (hroot1 : 1 ≤ t → root 1 = -1)
    (poly : List F) (hlen : poly.length = 2 ^ t) (x : F)
    (rs : List F) (hrs : nth_root_powers root (2 ^ t) = some rs) :
    poly_eval_rhizomes poly rs x = horner (intt_coeffs (root t) (2 ^ t) poly) x := by
  have hrs' := nth_root_powers_eq_powers root t hchain hroot1
  rw [hrs] at hrs'
  rw [Option.some.inj hrs']
  exact rhizomes_eq_horner_powers t (root t)
    (fun ht => root_chain_pow root t hchain hroot1 t ht le_rfl) poly hlen x

theorem claim_C1_witness :
    poly_eval_rhizomes (F := K) [1, 2, 3, 4] [1, 4, 16, 13] 5
      = horner (intt_coeffs (kroot 2) (2 ^ 2) [1, 2, 3, 4]) 5 :=
  claim_C1_rhizomes_eq_monomial K kroot 2 (by decide) (by decide)
    [1, 2, 3, 4] (by decide) 5 [1, 4, 16, 13] (by decide)

/-- C2: for every root table, point, and ordered collection of non-empty
polynomials of power-of-two length at most the table length, the batched
evaluator returns the per-index results of the single evaluator. -/
theorem claim_C2_batched_eq_single (F : Type) [Field F]
    (polynomials : List (List F)) (roots : List F) (x : F)
    (hne : ∀ p ∈ polynomials, p ≠ [])
    (_hpow : ∀ p ∈ polynomials, ∃ k, p.length = 2 ^ k)
    (hlen : ∀ p ∈ polynomials, p.length ≤ roots.length) :
    poly_eval_rhizomes_batched polynomials roots x
      = polynomials.map (fun p => poly_eval_rhizomes p roots x) :=
  batched_eq_map_single polynomials roots x hne hlen

theorem claim_C2_witness :
    poly_eval_rhizomes_batched (F := K) [[1], [2, 3], [4, 5, 6, 7]] [1, 4, 16, 13] 3
      = [[1], [2, 3], [4, 5, 6, 7]].map
          (fun p => poly_eval_rhizomes (F := K) p [1, 4, 16, 13] 3) :=
  claim_C2_batched_eq_single K [[1], [2, 3], [4, 5, 6, 7]] [1, 4, 16, 13] 3
    (by decide)
    (by
      intro p hp
      fin_cases hp
      · exact ⟨0, rfl⟩
      · exact ⟨1, rfl⟩
      · exact ⟨2, rfl⟩)
    (by decide)

/-- C3: dimension doubling preserves evaluation: the value of
`poly_eval_rhizomes` on the original first `n` entries against the table of
size `n` equals its value, after `extend_dimension_double`, on the first `2n`
entries against the table of size `2n`, at the same point. -/
theorem claim_C3_extend_double_preserves_eval (F : Type) [Field F] (root : ℕ → F)
    (t : ℕ)
    (hchain : ∀ k, k < t + 1 → (root (k + 1)) ^ 2 = root k)
    (hroot1 : root 1 = -1)
    (h2 : (2 : F) ≠ 0)
    (values : List F) (hlen : 2 * 2 ^ t ≤ values.length) (x : F)
    (rsn rs2n out : List F)
    (hrsn : nth_root_powers root (2 ^ t) = some rsn)
    (hrs2n : nth_root_powers root (2 * 2 ^ t) = some rs2n)
    (hout : extend_dimension_double root values (2 ^ t) = some out) :
    poly_eval_rhizomes (values.take (2 ^ t)) rsn x
      = poly_eval_rhizomes (out.take (2 * 2 ^ t)) rs2n x := by
  have h2n : 2 * 2 ^ t = 2 ^ (t + 1) := by ring
  have hrsn' := nth_root_powers_eq_powers root t (fun k hk => hchain k (by omega))
    (fun _ => hroot1)
  rw [hrsn] at hrsn'
  have hrsneq := Option.some.inj hrsn'
  have hrs2n'' := nth_root_powers_eq_powers root (t + 1) hchain (fun _ => hroot1)
  rw [h2n] at hrs2n
  rw [hrs2n] at hrs2n''
  have hrs2neq := Option.some.inj hrs2n''
  obtain ⟨hle, _, houteq⟩ := extend_double_some root values (2 ^ t) out hout
  rw [log2_two_pow] at houteq
  set w := root t with hwdef
  set w2 := root (t + 1) with hw2def
  set y := values.take (2 ^ t) with hydef
  have hylen : y.length = 2 ^ t := by
    rw [hydef, List.length_take]
    omega
  set news := ntt_star w2 (2 ^ t) (intt_coeffs w (2 ^ t) y) with hnewsdef
  have hnewslen : news.length = 2 ^ t := length_ntt_star _ _ _
  have hshuffle_len : (perfect_shuffle (y ++ news)).length = 2 * 2 ^ t := by
    rw [length_perfect_shuffle, List.length_append, hylen, hnewslen]
    ring
  have houttake : out.take (2 * 2 ^ t) = perfect_shuffle (y ++ news) := by
    rw [houteq, ← hshuffle_len, List.take_left]
  have hint : perfect_shuffle (y ++ news) = interleave y news :=
    perfect_shuffle_eq_interleave t y news hylen hnewslen
  have hSlen : (interleave y news).length = 2 ^ (t + 1) := by
    rw [length_interleave, hylen, hnewslen]
    ring
  have hw : 1 ≤ t → w ^ (2 ^ (t - 1)) = -1 := fun ht =>
    root_chain_pow root t (fun k hk => hchain k (by omega)) (fun _ => hroot1) t ht le_rfl
  have hw2 : w2 ^ (2 ^ t) = -1 := by
    have := root_chain_pow root (t + 1) hchain (fun _ => hroot1) (t + 1) (by omega) le_rfl
    simpa using this
  have hw2' : 1 ≤ t + 1 → w2 ^ (2 ^ (t + 1 - 1)) = -1 := fun _ => by simpa using hw2
  have hsq : w2 ^ 2 = w := hchain t (by omega)
  rw [hrsneq, hrs2neq, houttake, hint]
  rw [rhizomes_eq_horner_powers t w hw y hylen x]
  rw [rhizomes_eq_horner_powers (t + 1) w2 hw2' _ hSlen x]
  exact (extend_double_core t w w2 hsq hw hw2 h2 y hylen x).symm

theorem claim_C3_witness :
    poly_eval_rhizomes (F := K) (([3, 5, 9, 11] : List K).take (2 ^ 1)) [1, 16] 7
      = poly_eval_rhizomes (([3, 0, 5, 8] : List K).take (2 * 2 ^ 1)) [1, 4, 16, 13] 7 :=
  claim_C3_extend_double_preserves_eval K kroot 1 (by decide) (by decide) (by decide)
    [3, 5, 9, 11] (by decide) 7 [1, 16] [1, 4, 16, 13] [3, 0, 5, 8]
    (by decide) (by decide) (by decide)

/-- C4: for every power-of-two `n`, `nth_root_powers(n)` returns the table of
exactly `n` successive powers of the primitive `n`-th root of unity, equal to
the reference sequence built by repeated multiplication (`nth_root_powers_slow`). -/
theorem claim_C4_table_eq_powers (F : Type) [Field F] (root : ℕ → F) (t : ℕ)
    (hchain : ∀ k, k < t → (root (k + 1)) ^ 2 = root k)
    (hroot1 : 1 ≤ t → root 1 = -1) :
    nth_root_powers root (2 ^ t) = some (nth_root_powers_slow root (2 ^ t)) ∧
    nth_root_powers_slow root (2 ^ t)
      = (List.range (2 ^ t)).map (fun i => (root t) ^ i) := by
  have hslow : nth_root_powers_slow root (2 ^ t)
      = (List.range (2 ^ t)).map (fun i => (root t) ^ i) := by
    rw [nth_root_powers_slow_eq, log2_two_pow]
  refine ⟨?_, hslow⟩
  rw [hslow]
  exact nth_root_powers_eq_powers root t hchain hroot1

theorem claim_C4_witness :
    nth_root_powers kroot (2 ^ 2) = some (nth_root_powers_slow kroot (2 ^ 2)) ∧
    nth_root_powers_slow kroot (2 ^ 2)
      = (List.range (2 ^ 2)).map (fun i => (kroot 2) ^ i) :=
  claim_C4_table_eq_powers K kroot 2 (by decide) (by decide)

/-- C5, as stated, is false: in the table of size 4 the entry at index 1 is
the primitive fourth root of unity, not `-1` (here over the concrete field
`K = ZMod 17`, where `nth_root_powers 4 = [1, 4, 16, 13]` and `-1 = 16`). -/
theorem claim_C5_counterexample :
    ¬ (∀ n : ℕ, (∃ k, n = 2 ^ k) → ∀ rs : List K,
        nth_root_powers kroot n = some rs →
        rs.getD 0 0 = 1 ∧ (1 < n → rs.getD 1 0 = -1)) := by
  intro h
  have h4 := (h 4 ⟨2, by norm_num⟩ [1, 4, 16, 13] (by decide)).2 (by norm_num)
  exact absurd h4 (by decide)

/-- C5 amended: for every power-of-two `n` the table has entry 0 equal to one,
and for `n > 1` its entry 1 is the primitive root of order `n` (`root (log2 n)`),
which equals `-1` exactly when `n = 2`. -/
theorem claim_C5_amended_entries (F : Type) [Field F] (root : ℕ → F) (t : ℕ)
    (hchain : ∀ k, k < t → (root (k + 1)) ^ 2 = root k)
    (hroot1 : 1 ≤ t → root 1 = -1)
    (rs : List F) (hrs : nth_root_powers root (2 ^ t) = some rs) :
    rs.getD 0 0 = 1 ∧ (1 ≤ t → rs.getD 1 0 = root t) ∧ (t = 1 → rs.getD 1 0 = -1) := by
  have hrs' := nth_root_powers_eq_powers root t hchain hroot1
  rw [hrs] at hrs'
  have hrseq := Option.some.inj hrs'
  subst hrseq
  have h0 : (0 : ℕ) < 2 ^ t := pow_pos (by norm_num) _
  refine ⟨?_, ?_, ?_⟩
  · rw [getD_map_range _ h0, pow_zero]
  · intro ht
    have h1 : 1 < 2 ^ t := by
      calc 1 < 2 ^ 1 := by norm_num
      _ ≤ 2 ^ t := Nat.pow_le_pow_right (by norm_num) ht
    rw [getD_map_range _ h1, pow_one]
  · intro ht1
    subst ht1
    rw [getD_map_range _ (by norm_num), pow_one]
    exact hroot1 le_rfl

theorem claim_C5_amended_witness :
    ([1, 4, 16, 13] : List K).getD 0 0 = 1 ∧
    (1 ≤ 2 → ([1, 4, 16, 13] : List K).getD 1 0 = kroot 2) ∧
    (2 = 1 → ([1, 4, 16, 13] : List K).getD 1 0 = -1) :=
  claim_C5_amended_entries K kroot 2 (by decide) (by decide) [1, 4, 16, 13] (by decide)

/-- C6: the multi-point evaluator overwrites each slot of `points_in_out` with
`poly_eval_rhizomes` of the one polynomial at the point that was initially in
that slot; each output depends only on its own initial point. -/
theorem claim_C6_multieval_eq_single (F : Type) [Field F]
    (output_x poly roots : List F)
    (_hne : poly ≠ []) (hlen : poly.length ≤ roots.length) :
    poly_multieval_rhizomes_batched output_x poly roots
      = output_x.map (fun xj => poly_eval_rhizomes poly roots xj) :=
  multieval_eq_map_single output_x poly roots hlen

theorem claim_C6_witness :
    poly_multieval_rhizomes_batched (F := K) [3, 5] [1, 2, 3, 4] [1, 4, 16, 13]
      = [3, 5].map (fun xj => poly_eval_rhizomes (F := K) [1, 2, 3, 4] [1, 4, 16, 13] xj) :=
  claim_C6_multieval_eq_single K [3, 5] [1, 2, 3, 4] [1, 4, 16, 13]
    (by decide) (by decide)

/-- C7: for a power-of-two table of size `n > 1` and `k = n - 1` values, the
special-cased branch of `extend_dimension_one` (the cyclically offset weighted
sum) returns the same element as the general formula built from the Lagrange
weights `term_w`. -/
theorem claim_C7_special_eq_general (F : Type) [Field F] (root : ℕ → F) (t : ℕ)
    (ht : 1 ≤ t)
    (hchain : ∀ k, k < t → (root (k + 1)) ^ 2 = root k)
    (hroot1 : 1 ≤ t → root 1 = -1)
    (h2 : (2 : F) ≠ 0)
    (rs : List F) (hrs : nth_root_powers root (2 ^ t) = some rs)
    (values : List F) (hlen : values.length = 2 ^ t - 1) :
    extend_dimension_one values rs
      = (∑ i ∈ Finset.range (2 ^ t - 1), values.getD i 0 * term_w (2 ^ t - 1) i rs)
        * (-(term_w (2 ^ t - 1) (2 ^ t - 1) rs)⁻¹) := by
  have hrs' := nth_root_powers_eq_powers root t hchain hroot1
  rw [hrs] at hrs'
  have hrseq := Option.some.inj hrs'
  subst hrseq
  cases t with
  | zero => omega
  | succ t' =>
      exact extend_one_special_eq_general t' (root (t' + 1))
        (root_chain_pow root (t' + 1) hchain hroot1 (t' + 1) (by omega) le_rfl)
        h2 values hlen

theorem claim_C7_witness :
    extend_dimension_one (F := K) [2, 5, 7] [1, 4, 16, 13]
      = (∑ i ∈ Finset.range (2 ^ 2 - 1),
          ([2, 5, 7] : List K).getD i 0 * term_w (2 ^ 2 - 1) i [1, 4, 16, 13])
        * (-(term_w (2 ^ 2 - 1) (2 ^ 2 - 1) ([1, 4, 16, 13] : List K))⁻¹) :=
  claim_C7_special_eq_general K kroot 2 (by omega) (by decide) (by decide) (by decide)
    [1, 4, 16, 13] (by decide) [2, 5, 7] (by decide)

/-- C8: on a power-of-two length `≥ 4`, `perfect_shuffle` interleaves the
first and second halves; lengths shorter than 4 are left unchanged; and in
these cases the operation is a permutation of positions, preserving the
multiset of elements. -/
theorem claim_C8_shuffle_interleaves {α : Type} (l : List α) :
    (4 ≤ l.length → (∃ k, l.length = 2 ^ k) →
      perfect_shuffle l = interleave (l.take (l.length / 2)) (l.drop (l.length / 2))) ∧
    (l.length < 4 → perfect_shuffle l = l) ∧
    ((∃ k, l.length = 2 ^ k) ∨ l.length < 4 → (perfect_shuffle l).Perm l) := by
  refine ⟨?_, fun h => perfect_shuffle_short l h, fun _ => perfect_shuffle_perm l⟩
  intro h4 hpow
  obtain ⟨k, hk⟩ := hpow
  have hk2 : 2 ≤ k := by
    by_contra hlt
    interval_cases k <;> omega
  have hksplit : (2 : ℕ) ^ k = 2 ^ (k - 1) + 2 ^ (k - 1) := by
    have : (2 : ℕ) ^ k = 2 ^ (k - 1) * 2 := by
      rw [← pow_succ]
      congr 1
      omega
    omega
  have hhalf : l.length / 2 = 2 ^ (k - 1) := by omega
  have htlen : (l.take (l.length / 2)).length = 2 ^ (k - 1) := by
    rw [List.length_take]
    omega
  have hdlen : (l.drop (l.length / 2)).length = 2 ^ (k - 1) := by
    rw [List.length_drop]
    omega
  have := perfect_shuffle_eq_interleave (k - 1) (l.take (l.length / 2))
    (l.drop (l.length / 2)) htlen hdlen
  rw [List.take_append_drop] at this
  exact this

theorem claim_C8_witness :
    perfect_shuffle [10, 11, 12, 13] = interleave [10, 11] [12, 13] ∧
    (perfect_shuffle [10, 11, 12, 13]).Perm ([10, 11, 12, 13] : List ℕ) := by
  have h := claim_C8_shuffle_interleaves ([10, 11, 12, 13] : List ℕ)
  exact ⟨by simpa using h.1 (by norm_num) ⟨2, rfl⟩, h.2.2 (Or.inl ⟨2, rfl⟩)⟩

/-- C9: `inv_pow2(n)` succeeds on every exact power of two and the returned
element multiplied by `n` (the sum of `n` copies of one) is one; on every
other `n` it fails deterministically. -/
theorem claim_C9_inv_pow2 (F : Type) [Field F] (h2 : (2 : F) ≠ 0) (n : ℕ) :
    ((∃ k, n = 2 ^ k) →
      inv_pow2 F n = some (half_power F (log2 n)) ∧
        half_power F (log2 n) * ((n : ℕ) : F) = 1) ∧
    ((∀ k, n ≠ 2 ^ k) → inv_pow2 F n = none) := by
  constructor
  · rintro ⟨k, rfl⟩
    rw [log2_two_pow]
    refine ⟨inv_pow2_two_pow k, ?_⟩
    rw [half_power_cast]
    have hne : (((2 : ℕ) ^ k : ℕ) : F) ≠ 0 := by
      push_cast
      exact pow_ne_zero _ h2
    exact inv_mul_cancel₀ hne
  · intro hk
    unfold inv_pow2
    rw [if_neg]
    exact fun h => hk (log2 n) h

theorem claim_C9_witness :
    inv_pow2 K 8 = some (half_power K (log2 8)) ∧
      half_power K (log2 8) * ((8 : ℕ) : K) = 1 :=
  (claim_C9_inv_pow2 K (by decide) 8).1 ⟨3, by norm_num⟩

/-- C10: a successful `extend_dimension_double(values, n)` writes only the
first `2n` slots: the result has the same length as `values` and every entry
at index `2n ≤ i` is exactly what it was before the call. -/
theorem claim_C10_frame (F : Type) [Field F] (root : ℕ → F) (values : List F)
    (t : ℕ) (out : List F)
    (hout : extend_dimension_double root values (2 ^ t) = some out) :
    out.length = values.length ∧
    ∀ i, 2 * 2 ^ t ≤ i → out.getD i 0 = values.getD i 0 := by
  obtain ⟨hle, _, houteq⟩ := extend_double_some root values (2 ^ t) out hout
  have hylen : (values.take (2 ^ t)).length = 2 ^ t := by
    rw [List.length_take]
    omega
  have hshuffle_len :
      (perfect_shuffle (values.take (2 ^ t) ++
        ntt_star (root (log2 (2 ^ t) + 1)) (2 ^ t)
          (intt_coeffs (root (log2 (2 ^ t))) (2 ^ t) (values.take (2 ^ t))))).length
        = 2 * 2 ^ t := by
    rw [length_perfect_shuffle, List.length_append, hylen, length_ntt_star]
    ring
  constructor
  · rw [houteq, List.length_append, hshuffle_len, List.length_drop]
    omega
  · intro i hi
    rw [houteq, getD_append_from _ _ _ i (by omega), hshuffle_len, getD_drop]
    congr 1
    omega

theorem claim_C10_witness :
    ([1, 8, 2, 12, 5, 6] : List K).length = ([1, 2, 3, 4, 5, 6] : List K).length ∧
    ([1, 8, 2, 12, 5, 6] : List K).getD 4 0 = ([1, 2, 3, 4, 5, 6] : List K).getD 4 0 ∧
    ([1, 8, 2, 12, 5, 6] : List K).getD 5 0 = ([1, 2, 3, 4, 5, 6] : List K).getD 5 0 := by
  have h := claim_C10_frame K kroot [1, 2, 3, 4, 5, 6] 1 [1, 8, 2, 12, 5, 6] (by decide)
  exact ⟨h.1, h.2 4 (by norm_num), h.2 5 (by norm_num)⟩

end Rhizomes
